import Mathlib

/-!
Feedback collector (`script.js`): a shallow embedding of the feedback store.

The script keeps one array `feedbackData` of feedback objects, mirrors it into
`localStorage` under the key `feedbackData` with `JSON.stringify`, and redraws
the list after each change.  This file embeds the data and the handlers of the
script as Lean functions and proves properties of them.

Conventions of the embedding.

* A JavaScript string is its sequence of UTF-16 code units, `List Nat`
  (each unit below `65536`).  `js` turns a Lean string into that sequence.
* A JavaScript number that the script computes is an integer, `NaN` or an
  infinity (`Date.now()`, `parseInt`, the like counter).  `parseInt` and
  `JSON.parse` round to the nearest double, as JavaScript does.
* The clock (`Date.now()`, `new Date().toISOString()`), the form fields and
  the answer to `confirm` are arguments of the handlers.
* The handlers are run one after the other on a `Page`, the state the script
  closes over: the array, `localStorage`, and what `displayFeedback` was last
  given.  A `RangeError` of `displayFeedback` ends the handler that called it.
-/

namespace FeedbackCollector

/-! ## Strings -/

/-- A JavaScript string: its UTF-16 code units. -/
abbrev JSString := List Nat

/-- UTF-16 code units of one Unicode scalar value. -/
def utf16 (c : Char) : List Nat :=
  if c.toNat < 65536 then [c.toNat]
  else [55296 + (c.toNat - 65536) / 1024, 56320 + (c.toNat - 65536) % 1024]

/-- The JavaScript string written as a Lean string literal. -/
def js (s : String) : JSString := s.toList.flatMap utf16

/-- Code units removed by `String.prototype.trim` and skipped by `parseInt`:
ECMAScript `WhiteSpace` and `LineTerminator`. -/
def isWhiteSpace (c : Nat) : Bool :=
  c == 9 || c == 10 || c == 11 || c == 12 || c == 13 || c == 32 || c == 160 ||
  c == 5760 || (8192 ≤ c && c ≤ 8202) || c == 8232 || c == 8233 || c == 8239 ||
  c == 8287 || c == 12288 || c == 65279

/-- Drop the run of white space at the end of a string. -/
def trimEnd : JSString → JSString
  | [] => []
  | c :: cs =>
    match trimEnd cs with
    | [] => if isWhiteSpace c then [] else [c]
    | r => c :: r

/-- The method `String.prototype.trim`: white space removed from both ends. -/
def trim (s : JSString) : JSString := trimEnd (s.dropWhile isWhiteSpace)

/-- The call `String.prototype.split(',')`: the pieces between the commas (code unit
44); a string without a comma, the empty one included, is a single piece. -/
def splitComma : JSString → List JSString
  | [] => [[]]
  | c :: cs =>
    if c = 44 then [] :: splitComma cs
    else
      match splitComma cs with
      | [] => [[c]]
      | p :: ps => (c :: p) :: ps

/-- Truthiness of a string: it is not empty. -/
def truthyString (s : JSString) : Bool := !s.isEmpty

/-- The expression of `handleFormSubmit` that turns the tags field into the
tag array: `.split(',').map(tag => tag.trim()).filter(tag => tag)`. -/
def parseTags (tagsRaw : JSString) : List JSString :=
  ((splitComma tagsRaw).map trim).filter truthyString

/-! ## Numbers -/

/-- A number the script computes: an integer, `NaN`, or `Infinity` or
`-Infinity`. -/
inductive JSNumber where
  | nan
  | int (i : Int)
  | inf (negative : Bool)
  deriving DecidableEq, Repr

/-- Strict equality `===` on numbers: `NaN` equals nothing. -/
def JSNumber.strictEq : JSNumber → JSNumber → Bool
  | .int a, .int b => a == b
  | .inf a, .inf b => a == b
  | _, _ => false

/-- Position of the leading binary digit of `n` (0 for 0 and 1); the first
argument bounds the number of halvings. -/
def log2Floor : Nat → Nat → Nat
  | 0, _ => 0
  | fuel + 1, n => if n < 2 then 0 else log2Floor fuel (n / 2) + 1

/-- The binary exponent of the last mantissa digit of the double nearest to
`a / b`, for `a` and `b` not 0: with `2^l ≤ a / b < 2^(l + 1)` it is `l - 52`,
and -1074 for a subnormal. -/
def doubleExponent (a b : Nat) : Int :=
  let l : Int := (log2Floor a a : Int) - (log2Floor b b : Int)
  let l : Int := if b * 2 ^ l.toNat ≤ a * 2 ^ (-l).toNat then l else l - 1
  max (l - 52) (-1074)

/-- The quotient `a / b` in units of `2^e`, rounded to the nearest integer, a
tie to the even one. -/
def doubleMantissa (a b : Nat) (e : Int) : Nat :=
  let n : Nat := a * 2 ^ (-e).toNat
  let d : Nat := b * 2 ^ e.toNat
  let m : Nat := n / d
  let r : Nat := n % d
  if d < 2 * r ∨ (2 * r = d ∧ m % 2 = 1) then m + 1 else m

/-- The double nearest to `sign * a / b`, for `sign` 1 or -1 and `b` not 0:
the mantissa has 53 binary digits (fewer below `2^-1022`), a tie goes to the
even mantissa; `none` when the result is beyond the largest double, which
JavaScript makes an infinity. -/
def nearestDouble (sign : Int) (a b : Nat) : Option ℚ :=
  if a = 0 then some 0
  else
    let e : Int := doubleExponent a b
    let m : Nat := doubleMantissa a b e
    if 971 < e ∨ (e = 971 ∧ m = 2 ^ 53) then none
    else some (mkRat (sign * (m * 2 ^ e.toNat : Nat)) (2 ^ (-e).toNat))

/-- The double nearest to an integer. -/
def roundInt (i : Int) : Option ℚ := nearestDouble (if i < 0 then -1 else 1) i.natAbs 1

/-- The integer is a double: rounding to the nearest double leaves it as it
is.  Every integer of magnitude up to `2^53` is one. -/
def isDouble (i : Int) : Bool := roundInt i == some (i : ℚ)

/-- Value of a code unit as a digit of the given radix, if it is one. -/
def digitValue (radix c : Nat) : Option Nat :=
  let v :=
    if 48 ≤ c ∧ c ≤ 57 then some (c - 48)
    else if 97 ≤ c ∧ c ≤ 122 then some (c - 97 + 10)
    else if 65 ≤ c ∧ c ≤ 90 then some (c - 65 + 10)
    else none
  match v with
  | some d => if d < radix then some d else none
  | none => none

/-- Read the longest run of digits at the head; `none` if there is none. -/
def readDigits (radix : Nat) : JSString → Option Nat → Option Nat
  | [], acc => acc
  | c :: cs, acc =>
    match digitValue radix c with
    | some d => readDigits radix cs (some (radix * acc.getD 0 + d))
    | none => acc

/-- The function `parseInt(string)` with no radix argument: leading white
space skipped, an optional sign, an optional `0x`/`0X` (then radix 16, else
10), the longest run of digits; `NaN` when there is no digit.  The value of
the digits is rounded to the nearest double, an infinity beyond the largest
one (the standard also lets an implementation read decimal digits after the
20th as 0). -/
def parseInt (s : JSString) : JSNumber :=
  let s := s.dropWhile isWhiteSpace
  let (sign, s) : Int × JSString :=
    match s with
    | 45 :: r => (-1, r)
    | 43 :: r => (1, r)
    | _ => (1, s)
  let (radix, s) : Nat × JSString :=
    match s with
    | 48 :: 120 :: r => (16, r)
    | 48 :: 88 :: r => (16, r)
    | _ => (10, s)
  match readDigits radix s none with
  | some n =>
    match nearestDouble sign n 1 with
    | some d => .int d.num
    | none => .inf (decide (sign < 0))
  | none => .nan

/-! ## The records -/

/-- A reply: the object pushed by `addReply`. -/
structure Reply where
  id : Int
  name : JSString
  text : JSString
  date : JSString
  likes : Int
  liked : Bool
  deriving DecidableEq, Repr

/-- A comment: the object pushed by `actuallySubmitComment`. -/
structure Comment where
  id : Int
  name : JSString
  text : JSString
  date : JSString
  likes : Int
  liked : Bool
  replies : List Reply
  deriving DecidableEq, Repr

/-- A feedback record: the object built by `handleFormSubmit`. -/
structure Feedback where
  id : Int
  name : JSString
  email : JSString
  rating : JSNumber
  feedback : JSString
  tags : List JSString
  date : JSString
  comments : List Comment
  deriving DecidableEq, Repr

/-! ## `JSON.stringify` of the collection -/

/-- Lower-case hexadecimal digit as a code unit. -/
def hexDigit (d : Nat) : Nat := if d < 10 then 48 + d else 87 + d

/-- The escape `\uXXXX` of a code unit (`UnicodeEscape`). -/
def unicodeEscape (c : Nat) : JSString :=
  [92, 117, hexDigit (c / 4096 % 16), hexDigit (c / 256 % 16), hexDigit (c / 16 % 16),
    hexDigit (c % 16)]

/-- How `QuoteJSONString` writes a code unit that is not part of a surrogate
pair: the short escapes, `\uXXXX` for the other control characters and for a
lone surrogate, the unit itself otherwise. -/
def escapeUnit (c : Nat) : JSString :=
  if c = 8 then [92, 98]
  else if c = 9 then [92, 116]
  else if c = 10 then [92, 110]
  else if c = 12 then [92, 102]
  else if c = 13 then [92, 114]
  else if c = 34 then [92, 34]
  else if c = 92 then [92, 92]
  else if c < 32 ∨ (55296 ≤ c ∧ c ≤ 57343) then unicodeEscape c
  else [c]

/-- Body of `QuoteJSONString`: a leading surrogate followed by a trailing one
is a code point and is copied; every other unit goes through `escapeUnit`. -/
def quoteUnits : JSString → JSString
  | [] => []
  | [c] => escapeUnit c
  | c :: d :: ds =>
    if (55296 ≤ c ∧ c ≤ 56319) ∧ (56320 ≤ d ∧ d ≤ 57343) then c :: d :: quoteUnits ds
    else escapeUnit c ++ quoteUnits (d :: ds)

/-- The operation `QuoteJSONString`: the string between double quotes. -/
def quoteJSONString (s : JSString) : JSString := [34] ++ quoteUnits s ++ [34]

/-- Decimal digits of a natural number, most significant first; the first
argument bounds the number of digits. -/
def natDigits : Nat → Nat → JSString → JSString
  | 0, _, acc => acc
  | fuel + 1, n, acc =>
    if n < 10 then (48 + n) :: acc else natDigits fuel (n / 10) ((48 + n % 10) :: acc)

/-- The text `Number::toString` gives for a non-negative integer. -/
def natToString (n : Nat) : JSString := natDigits (n + 1) n []

/-- The decimal that `Number::toString` writes for the integer double `x`:
among the decimals `s × 10^t` whose nearest double is `x`, one with the
fewest digits `s`, and of these the nearest to `x`, the even `s` on a tie.
For each exponent the candidates are the two multiples of `10^t` around `x`;
the second argument counts the exponents still to try, the largest first.
Up to `2^53` the decimal is `x` itself. -/
def shortestDecimal (x : Nat) : Nat → Nat
  | 0 => x
  | t + 1 =>
    let lo := x / 10 ^ t * 10 ^ t
    let hi := lo + 10 ^ t
    let ok := fun (c : Nat) => roundInt (c : Int) == roundInt (x : Int)
    if ok lo = true ∧ ok hi = true then
      if x - lo < hi - x then lo
      else if hi - x < x - lo then hi
      else if x / 10 ^ t % 2 = 0 then lo else hi
    else if ok lo = true then lo
    else if ok hi = true then hi
    else shortestDecimal x t

/-- Drop the zeros at the end of a run of digits. -/
def stripZeros : JSString → JSString
  | [] => []
  | c :: cs =>
    match stripZeros cs with
    | [] => if c = 48 then [] else [c]
    | r => c :: r

/-- The text `Number::toString` gives for a decimal that is a non-negative
integer: up to 21 digits, the digits; beyond, the first digit, a point and
the further digits up to the last that is not 0, if there is one, then `e+`
and the number of digits after the first. -/
def decimalToString (v : Nat) : JSString :=
  let ds := natToString v
  if ds.length ≤ 21 then ds
  else
    match stripZeros ds with
    | [] => ds
    | d :: rest =>
      (d :: (if rest = [] then [] else 46 :: rest)) ++ [101, 43] ++ natToString (ds.length - 1)

/-- The text `Number::toString` gives for an integer double: the shortest
decimal that reads back as the same double, with a minus sign when
negative. -/
def numberToString (i : Int) : JSString :=
  let text := decimalToString (shortestDecimal i.natAbs (natToString i.natAbs).length)
  if i < 0 then 45 :: text else text

/-- The text `JSON.stringify` gives for a number: `NaN`, `Infinity` and
`-Infinity` are written `null`. -/
def stringifyNumber : JSNumber → JSString
  | .nan => js "null"
  | .inf _ => js "null"
  | .int i => numberToString i

/-- The text `JSON.stringify` gives for a truth value. -/
def stringifyBool (b : Bool) : JSString := if b then js "true" else js "false"

/-- One member of an object: the quoted key, a colon, the value. -/
def stringifyMember (m : String × JSString) : JSString :=
  quoteJSONString (js m.1) ++ [58] ++ m.2

/-- An object: the members between braces, separated by commas. -/
def stringifyObject (members : List (String × JSString)) : JSString :=
  [123] ++ List.intercalate [44] (members.map stringifyMember) ++ [125]

/-- An array: the elements between brackets, separated by commas. -/
def stringifyArray (items : List JSString) : JSString :=
  [91] ++ List.intercalate [44] items ++ [93]

/-- The text `JSON.stringify` gives for a reply, keys in the order of the object literal of
`addReply`. -/
def stringifyReply (r : Reply) : JSString :=
  stringifyObject
    [("id", numberToString r.id), ("name", quoteJSONString r.name),
     ("text", quoteJSONString r.text), ("date", quoteJSONString r.date),
     ("likes", numberToString r.likes), ("liked", stringifyBool r.liked)]

/-- The text `JSON.stringify` gives for a comment, keys in the order of the object literal of
`actuallySubmitComment`. -/
def stringifyComment (c : Comment) : JSString :=
  stringifyObject
    [("id", numberToString c.id), ("name", quoteJSONString c.name),
     ("text", quoteJSONString c.text), ("date", quoteJSONString c.date),
     ("likes", numberToString c.likes), ("liked", stringifyBool c.liked),
     ("replies", stringifyArray (c.replies.map stringifyReply))]

/-- The text `JSON.stringify` gives for a feedback record, keys in the order of the object
literal of `handleFormSubmit`. -/
def stringifyFeedback (f : Feedback) : JSString :=
  stringifyObject
    [("id", numberToString f.id), ("name", quoteJSONString f.name),
     ("email", quoteJSONString f.email), ("rating", stringifyNumber f.rating),
     ("feedback", quoteJSONString f.feedback),
     ("tags", stringifyArray (f.tags.map quoteJSONString)),
     ("date", quoteJSONString f.date),
     ("comments", stringifyArray (f.comments.map stringifyComment))]

/-- The text `JSON.stringify(feedbackData)`. -/
def stringify (feedbackData : List Feedback) : JSString :=
  stringifyArray (feedbackData.map stringifyFeedback)

/-! ## The page state and `localStorage` -/

/-- The content of `localStorage`: keys with their values. -/
abbrev Storage := List (JSString × JSString)

/-- The call `localStorage.getItem(key)`; `none` stands for `null`. -/
def getItem (key : JSString) : Storage → Option JSString
  | [] => none
  | (k, v) :: rest => if k = key then some v else getItem key rest

/-- The call `localStorage.setItem(key, value)`: the value of a key already
there is replaced, a new key is added. -/
def setItem (key value : JSString) : Storage → Storage
  | [] => [(key, value)]
  | (k, v) :: rest => if k = key then (k, value) :: rest else (k, v) :: setItem key value rest

/-- What a handler does to the outside, in the order it does it. -/
inductive Effect where
  | stored (blob : JSString)
  | rendered (shown : List Feedback)
  deriving DecidableEq, Repr

/-- The state the script closes over. -/
structure Page where
  /-- the variable `feedbackData` -/
  feedbackData : List Feedback
  /-- the content of `localStorage` -/
  localStorage : Storage
  /-- the array last passed to `displayFeedback` -/
  displayed : List Feedback
  /-- the options of `tagFilter` after the fixed option `all` -/
  tagOptions : List JSString
  /-- the writes to `localStorage.feedbackData` and the calls of
  `displayFeedback`, oldest first -/
  trace : List Effect
  deriving DecidableEq, Repr

/-- The function `saveFeedbackData` of the script. -/
def saveFeedbackData (p : Page) : Page :=
  { p with
    localStorage := setItem (js "feedbackData") (stringify p.feedbackData) p.localStorage
    trace := p.trace ++ [.stored (stringify p.feedbackData)] }

/-- The star line of `displayFeedback`,
`'★'.repeat(feedback.rating) + '☆'.repeat(5 - feedback.rating)`, throws a
`RangeError`: `repeat` rejects a negative or infinite count and takes `NaN`
as 0. -/
def starsThrow : JSNumber → Bool
  | .nan => false
  | .inf _ => true
  | .int i => decide (i < 0 ∨ 5 < i)

/-- The call `displayFeedback(feedbackArray)` ends with the `RangeError` of the
star line: the list was cleared, the cards before the first record whose
rating the star line rejects were drawn, and the statements of the caller
after the call are not reached. -/
def drawThrows (feedbackArray : List Feedback) : Bool :=
  feedbackArray.any (fun feedback => starsThrow feedback.rating)

/-- The function `displayFeedback` of the script, as far as the store is
concerned: the call and the array it is given are recorded.  Whether the
call draws every card or throws is `drawThrows` of the array. -/
def displayFeedback (feedbackArray : List Feedback) (p : Page) : Page :=
  { p with displayed := feedbackArray, trace := p.trace ++ [.rendered feedbackArray] }

/-- The method `Set.prototype.add` on a set kept in insertion order. -/
def setAdd (allTags : List JSString) (tag : JSString) : List JSString :=
  if tag ∈ allTags then allTags else allTags ++ [tag]

/-- The set `allTags` built by `updateTagFilterOptions`, in insertion order. -/
def allTags (feedbackArray : List Feedback) : List JSString :=
  feedbackArray.foldl (fun acc feedback => feedback.tags.foldl setAdd acc) []

/-- The function `updateTagFilterOptions` of the script: one option per
element of `allTags`. -/
def updateTagFilterOptions (feedbackArray : List Feedback) (p : Page) : Page :=
  { p with tagOptions := allTags feedbackArray }

/-! ## The handlers -/

/-- A reading of the clock: `Date.now()` and `new Date().toISOString()`. -/
structure Clock where
  now : Int
  iso : JSString
  deriving DecidableEq, Repr

/-- The values of the form fields read by `handleFormSubmit`. -/
structure FormFields where
  name : JSString
  email : JSString
  rating : JSString
  feedback : JSString
  tags : JSString
  deriving DecidableEq, Repr

/-- The object `newFeedback` built by `handleFormSubmit`. -/
def newFeedback (form : FormFields) (clock : Clock) : Feedback :=
  { id := clock.now
    name := form.name
    email := form.email
    rating := parseInt form.rating
    feedback := form.feedback
    tags := parseTags form.tags
    date := clock.iso
    comments := [] }

/-- The function `handleFormSubmit` of the script: `unshift`, save, redraw,
and, when the redraw did not throw, refresh the tag options. -/
def handleFormSubmit (form : FormFields) (clock : Clock) (p : Page) : Page :=
  let p := { p with feedbackData := newFeedback form clock :: p.feedbackData }
  let p := saveFeedbackData p
  let p := displayFeedback p.feedbackData p
  if drawThrows p.feedbackData then p else updateTagFilterOptions p.feedbackData p

/-- The call `feedbackData.find(f => f.id === feedbackId)`: the first record
with the id; `none` is `undefined`. -/
def findFeedback (feedbackId : Int) (feedbackData : List Feedback) : Option Feedback :=
  feedbackData.find? (fun f => f.id == feedbackId)

/-- Assignment through the reference returned by `find`: the first record
with the id is changed in place. -/
def updateFound (feedbackId : Int) (u : Feedback → Feedback) : List Feedback → List Feedback
  | [] => []
  | f :: fs => if f.id = feedbackId then u f :: fs else f :: updateFound feedbackId u fs

/-- The element `array[index]` for a number that is an integer; `none` is `undefined`. -/
def arrayGet {α : Type} (xs : List α) (index : Int) : Option α :=
  if 0 ≤ index then xs[index.toNat]? else none

/-- Assignment through `array[index]`: that element is changed in place. -/
def updateAt {α : Type} (u : α → α) : Nat → List α → List α
  | _, [] => []
  | 0, x :: xs => u x :: xs
  | n + 1, x :: xs => x :: updateAt u n xs

/-- The comment object pushed by `actuallySubmitComment`. -/
def newComment (text name : JSString) (clock : Clock) : Comment :=
  { id := clock.now, name := name, text := text, date := clock.iso,
    likes := 0, liked := false, replies := [] }

/-- The function `actuallySubmitComment` of the script; `feedbackId` is the
id read from the card of the input.  `feedback.comments || []` is
`feedback.comments`, an array. -/
def actuallySubmitComment (feedbackId : Int) (text name : JSString) (clock : Clock)
    (p : Page) : Page :=
  match findFeedback feedbackId p.feedbackData with
  | none => p
  | some _ =>
    let push := fun (feedback : Feedback) =>
      { feedback with comments := feedback.comments ++ [newComment text name clock] }
    let p := { p with feedbackData := updateFound feedbackId push p.feedbackData }
    let p := saveFeedbackData p
    displayFeedback p.feedbackData p

/-- The expression `a || b` on strings, with `none` for `null`. -/
def stringOr (a : Option JSString) (b : JSString) : JSString :=
  match a with
  | some s => if truthyString s then s else b
  | none => b

/-- The reply object pushed by `addReply`. -/
def newReply (text : JSString) (clock : Clock) (storage : Storage) : Reply :=
  { id := clock.now, name := stringOr (getItem (js "commenterName") storage) (js "User"),
    text := text, date := clock.iso, likes := 0, liked := false }

/-- The function `addReply` of the script.  `comments[commentId].replies || []`
is the `replies` array. -/
def addReply (feedbackId commentId : Int) (text : JSString) (clock : Clock) (p : Page) : Page :=
  match findFeedback feedbackId p.feedbackData with
  | none => p
  | some feedback =>
    match arrayGet feedback.comments commentId with
    | none => p
    | some _ =>
      let push := fun (comment : Comment) =>
        { comment with replies := comment.replies ++ [newReply text clock p.localStorage] }
      let change := fun (feedback : Feedback) =>
        { feedback with comments := updateAt push commentId.toNat feedback.comments }
      let p := { p with feedbackData := updateFound feedbackId change p.feedbackData }
      let p := saveFeedbackData p
      displayFeedback p.feedbackData p

/-- The expression `likes || 0` on an integer. -/
def orZero (likes : Int) : Int := if likes ≠ 0 then likes else 0

/-- The two assignments of `likeComment` to the comment. -/
def toggleLike (comment : Comment) : Comment :=
  let liked := !comment.liked
  { comment with
    liked := liked
    likes := if liked then orZero comment.likes + 1 else max 0 (orZero comment.likes - 1) }

/-- The function `likeComment` of the script. -/
def likeComment (feedbackId commentId : Int) (p : Page) : Page :=
  match findFeedback feedbackId p.feedbackData with
  | none => p
  | some feedback =>
    match arrayGet feedback.comments commentId with
    | none => p
    | some _ =>
      let change := fun (feedback : Feedback) =>
        { feedback with comments := updateAt toggleLike commentId.toNat feedback.comments }
      let p := { p with feedbackData := updateFound feedbackId change p.feedbackData }
      let p := saveFeedbackData p
      displayFeedback p.feedbackData p

/-- The function `deleteFeedback` of the script; `confirmed` is the answer to
`confirm('Delete this feedback?')`.  The tag options are refreshed when the
redraw did not throw. -/
def deleteFeedback (confirmed : Bool) (feedbackId : Int) (p : Page) : Page :=
  if confirmed then
    let p := { p with feedbackData := p.feedbackData.filter (fun f => f.id != feedbackId) }
    let p := saveFeedbackData p
    let p := displayFeedback p.feedbackData p
    if drawThrows p.feedbackData then p else updateTagFilterOptions p.feedbackData p
  else p

/-- The predicate of the `filter` call in `filterFeedback`. -/
def filterMatch (selectedRating selectedTag : JSString) (feedback : Feedback) : Bool :=
  let ratingMatch := selectedRating == js "all" ||
    feedback.rating.strictEq (parseInt selectedRating)
  let tagMatch := selectedTag == js "all" || feedback.tags.contains selectedTag
  ratingMatch && tagMatch

/-- The function `filterFeedback` of the script; the two arguments are the
values of the rating and tag selects. -/
def filterFeedback (selectedRating selectedTag : JSString) (p : Page) : Page :=
  let filtered := p.feedbackData.filter (filterMatch selectedRating selectedTag)
  displayFeedback filtered p

/-- The function `resetAllFilters` of the script. -/
def resetAllFilters (p : Page) : Page := displayFeedback p.feedbackData p

/-! ## `JSON.parse` -/

/-- A JavaScript value as far as `JSON.parse` and the records need it.  A
finite number is the exact value of a double.  The members of an object are
kept in the order of the text; equal lists of members are equal objects. -/
inductive JSValue where
  | null
  | bool (b : Bool)
  | nan
  | inf (negative : Bool)
  | num (q : ℚ)
  | str (s : JSString)
  | arr (items : List JSValue)
  | obj (members : List (JSString × JSValue))
  deriving Repr

/-- The tokens of the JSON grammar. -/
inductive Token where
  | beginArray
  | endArray
  | beginObject
  | endObject
  | valueSeparator
  | nameSeparator
  | string (s : JSString)
  | number (q : ℚ)
  | litTrue
  | litFalse
  | litNull
  deriving DecidableEq, Repr

/-- Value of a hexadecimal digit, either case. -/
def hexValue (c : Nat) : Option Nat := digitValue 16 c

/-- The code unit a one-letter escape stands for: `\"`, `\\`, `\/`, `\b`,
`\f`, `\n`, `\r`, `\t`. -/
def simpleEscape (e : Nat) : Option Nat :=
  if e = 34 then some 34
  else if e = 92 then some 92
  else if e = 47 then some 47
  else if e = 98 then some 8
  else if e = 102 then some 12
  else if e = 110 then some 10
  else if e = 114 then some 13
  else if e = 116 then some 9
  else none

/-- The code unit of four hexadecimal digits. -/
def hexUnit (a b c d : Nat) : Option Nat :=
  match hexValue a, hexValue b, hexValue c, hexValue d with
  | some a, some b, some c, some d => some (((a * 16 + b) * 16 + c) * 16 + d)
  | _, _, _, _ => none

/-- The characters of a JSON string after the opening quote, up to the closing
quote: the string they denote and the text after the closing quote. -/
def lexString : JSString → Option (JSString × JSString)
  | [] => none
  | c :: rest =>
    if c = 34 then some ([], rest)
    else if c = 92 then
      match rest with
      | [] => none
      | e :: r =>
        if e = 117 then
          match r with
          | a :: b :: c :: d :: r =>
            match hexUnit a b c d with
            | some u => (lexString r).map (fun x => (u :: x.1, x.2))
            | none => none
          | _ => none
        else
          match simpleEscape e with
          | some u => (lexString r).map (fun x => (u :: x.1, x.2))
          | none => none
    else if c < 32 then none
    else (lexString rest).map (fun x => (c :: x.1, x.2))

/-- The longest run of decimal digits at the head, and the text after it. -/
def takeDigits : JSString → JSString × JSString
  | [] => ([], [])
  | c :: rest =>
    if 48 ≤ c ∧ c ≤ 57 then ((takeDigits rest).map (fun ds => c :: ds) id) else ([], c :: rest)

/-- Value of a run of decimal digits. -/
def digitsValue (ds : JSString) : Nat := ds.foldl (fun acc c => 10 * acc + (c - 48)) 0

/-- The integer part of a JSON number: `0`, or a digit from 1 to 9 followed by
digits. -/
def lexIntPart : JSString → Option (JSString × JSString)
  | 48 :: rest => some ([48], rest)
  | s =>
    match takeDigits s with
    | ([], _) => none
    | (ds, rest) => some (ds, rest)

/-- The optional fraction of a JSON number: a point and at least one digit. -/
def lexFraction : JSString → Option (JSString × JSString)
  | 46 :: rest =>
    match takeDigits rest with
    | ([], _) => none
    | (ds, rest) => some (ds, rest)
  | s => some ([], s)

/-- The optional exponent of a JSON number: `e` or `E`, an optional sign and
at least one digit. -/
def lexExponent (s : JSString) : Option (Int × JSString) :=
  let digits := fun (sign : Int) (s : JSString) =>
    match takeDigits s with
    | ([], _) => none
    | (ds, rest) => some (sign * (digitsValue ds : Int), rest)
  let signed := fun (s : JSString) =>
    match s with
    | 43 :: r => digits 1 r
    | 45 :: r => digits (-1) r
    | _ => digits 1 s
  match s with
  | 101 :: r => signed r
  | 69 :: r => signed r
  | _ => some (0, s)

/-- A JSON number without its sign at the head of the text: `sign` times its
exact value, and the text after it. -/
def lexUnsigned (sign : Int) (s : JSString) : Option (ℚ × JSString) :=
  match lexIntPart s with
  | none => none
  | some (ip, s) =>
    match lexFraction s with
    | none => none
    | some (fp, s) =>
      match lexExponent s with
      | none => none
      | some (e, s) =>
        let mantissa : Int := sign * (digitsValue (ip ++ fp) : Int)
        let shift : Int := e - (fp.length : Int)
        some (mkRat (mantissa * 10 ^ shift.toNat) (10 ^ (-shift).toNat), s)

/-- A JSON number at the head of the text: its exact value and the text after
it. -/
def lexNumber (s : JSString) : Option (ℚ × JSString) :=
  match s with
  | 45 :: r => lexUnsigned (-1) r
  | _ => lexUnsigned 1 s

/-- The text after the given literal name, when the text starts with it. -/
def stripLiteral : JSString → JSString → Option JSString
  | [], s => some s
  | _ :: _, [] => none
  | l :: ls, c :: cs => if l = c then stripLiteral ls cs else none

/-- The tokens of a JSON text; white space between tokens is space, tab, line
feed and carriage return.  The first argument bounds the number of tokens. -/
def lex : Nat → JSString → Option (List Token)
  | 0, _ => none
  | _ + 1, [] => some []
  | fuel + 1, c :: rest =>
    if c = 32 ∨ c = 9 ∨ c = 10 ∨ c = 13 then lex fuel rest
    else if c = 91 then (lex fuel rest).map (fun ts => Token.beginArray :: ts)
    else if c = 93 then (lex fuel rest).map (fun ts => Token.endArray :: ts)
    else if c = 123 then (lex fuel rest).map (fun ts => Token.beginObject :: ts)
    else if c = 125 then (lex fuel rest).map (fun ts => Token.endObject :: ts)
    else if c = 44 then (lex fuel rest).map (fun ts => Token.valueSeparator :: ts)
    else if c = 58 then (lex fuel rest).map (fun ts => Token.nameSeparator :: ts)
    else if c = 34 then
      match lexString rest with
      | some (s, r) => (lex fuel r).map (fun ts => Token.string s :: ts)
      | none => none
    else if c = 45 ∨ (48 ≤ c ∧ c ≤ 57) then
      match lexNumber (c :: rest) with
      | some (q, r) => (lex fuel r).map (fun ts => Token.number q :: ts)
      | none => none
    else
      match stripLiteral (js "true") (c :: rest) with
      | some r => (lex fuel r).map (fun ts => Token.litTrue :: ts)
      | none =>
        match stripLiteral (js "false") (c :: rest) with
        | some r => (lex fuel r).map (fun ts => Token.litFalse :: ts)
        | none =>
          match stripLiteral (js "null") (c :: rest) with
          | some r => (lex fuel r).map (fun ts => Token.litNull :: ts)
          | none => none

/-- Define a member of an object being built: a key already there gets the
new value, a new key goes to the end. -/
def setMember (key : JSString) (value : JSValue) :
    List (JSString × JSValue) → List (JSString × JSValue)
  | [] => [(key, value)]
  | (k, v) :: rest =>
    if k = key then (k, value) :: rest else (k, v) :: setMember key value rest

/-- The number a JSON number literal of exact value `q` denotes: the nearest
double, an infinity beyond the largest double. -/
def numberOfLiteral (q : ℚ) : JSValue :=
  match nearestDouble (if q.num < 0 then -1 else 1) q.num.natAbs q.den with
  | some d => .num d
  | none => .inf (decide (q.num < 0))

mutual

/-- A JSON value at the head of the tokens, and the tokens after it.  The
first argument bounds the depth of the recursion. -/
def parseValue : Nat → List Token → Option (JSValue × List Token)
  | 0, _ => none
  | _ + 1, [] => none
  | fuel + 1, tok :: rest =>
    match tok with
    | .litNull => some (.null, rest)
    | .litTrue => some (.bool true, rest)
    | .litFalse => some (.bool false, rest)
    | .number q => some (numberOfLiteral q, rest)
    | .string s => some (.str s, rest)
    | .beginArray =>
      match rest with
      | .endArray :: rest => some (.arr [], rest)
      | _ => parseElements fuel rest []
    | .beginObject =>
      match rest with
      | .endObject :: rest => some (.obj [], rest)
      | _ => parseMembers fuel rest []
    | _ => none

/-- The elements of a non-empty array after `[`, up to and including `]`. -/
def parseElements : Nat → List Token → List JSValue → Option (JSValue × List Token)
  | 0, _, _ => none
  | fuel + 1, ts, acc =>
    match parseValue fuel ts with
    | some (v, .valueSeparator :: rest) => parseElements fuel rest (acc ++ [v])
    | some (v, .endArray :: rest) => some (.arr (acc ++ [v]), rest)
    | _ => none

/-- The members of a non-empty object after the opening brace, up to and
including the closing brace. -/
def parseMembers : Nat → List Token → List (JSString × JSValue) →
    Option (JSValue × List Token)
  | 0, _, _ => none
  | fuel + 1, ts, acc =>
    match ts with
    | .string key :: .nameSeparator :: ts =>
      match parseValue fuel ts with
      | some (v, .valueSeparator :: rest) => parseMembers fuel rest (setMember key v acc)
      | some (v, .endObject :: rest) => some (.obj (setMember key v acc), rest)
      | _ => none
    | _ => none

end

/-- The call `JSON.parse(text)`: the value of the text, `none` when `JSON.parse` throws
a `SyntaxError`. -/
def JSONparse (text : JSString) : Option JSValue :=
  match lex (text.length + 1) text with
  | none => none
  | some toks =>
    match parseValue (2 * toks.length + 2) toks with
    | some (v, []) => some v
    | _ => none

/-- Truthiness of a value. -/
def JSValue.truthy : JSValue → Bool
  | .null => false
  | .bool b => b
  | .nan => false
  | .inf _ => true
  | .num q => decide (q ≠ 0)
  | .str s => truthyString s
  | .arr _ => true
  | .obj _ => true

/-- The outcome of the initialiser of `feedbackData` when the page starts: a
value for `feedbackData`, or the exception of `JSON.parse`. -/
inductive Startup where
  | loaded (feedbackData : JSValue)
  | syntaxError
  deriving Repr

/-- The initialiser of `feedbackData`:
`JSON.parse(localStorage.getItem('feedbackData')) || []`.  `JSON.parse` turns
its argument into a string first, `null` into the text `null`. -/
def loadFeedbackData (storage : Storage) : Startup :=
  let text := match getItem (js "feedbackData") storage with
    | some blob => blob
    | none => js "null"
  match JSONparse text with
  | none => .syntaxError
  | some v => if v.truthy then .loaded v else .loaded (.arr [])

/-- The value `JSON.parse` gives back for a reply. -/
def replyValue (r : Reply) : JSValue :=
  .obj [(js "id", .num r.id), (js "name", .str r.name), (js "text", .str r.text),
    (js "date", .str r.date), (js "likes", .num r.likes), (js "liked", .bool r.liked)]

/-- The value of a comment in memory. -/
def commentValue (c : Comment) : JSValue :=
  .obj [(js "id", .num c.id), (js "name", .str c.name), (js "text", .str c.text),
    (js "date", .str c.date), (js "likes", .num c.likes), (js "liked", .bool c.liked),
    (js "replies", .arr (c.replies.map replyValue))]

/-- The value of a number in memory. -/
def numberValue : JSNumber → JSValue
  | .nan => .nan
  | .inf negative => .inf negative
  | .int i => .num i

/-- The value of a feedback record in memory. -/
def feedbackValue (f : Feedback) : JSValue :=
  .obj [(js "id", .num f.id), (js "name", .str f.name), (js "email", .str f.email),
    (js "rating", numberValue f.rating), (js "feedback", .str f.feedback),
    (js "tags", .arr (f.tags.map JSValue.str)), (js "date", .str f.date),
    (js "comments", .arr (f.comments.map commentValue))]

/-- The value of the array `feedbackData` in memory. -/
def collectionValue (feedbackData : List Feedback) : JSValue :=
  .arr (feedbackData.map feedbackValue)

/-- What `JSON.stringify` makes of a number: `NaN`, `Infinity` and `-Infinity`
become `null`. -/
def numberJSON : JSNumber → JSValue
  | .nan => .null
  | .inf _ => .null
  | .int i => .num i

/-- Every number of the reply is a double. -/
def Reply.doubles (r : Reply) : Bool := isDouble r.id && isDouble r.likes

/-- Every number of the comment and of its replies is a double. -/
def Comment.doubles (c : Comment) : Bool :=
  isDouble c.id && isDouble c.likes && c.replies.all Reply.doubles

/-- A rating that is an integer is a double. -/
def JSNumber.double : JSNumber → Bool
  | .int i => isDouble i
  | _ => true

/-- Every number of the record, of its comments and of their replies is a
double, as every JavaScript number is. -/
def Feedback.doubles (f : Feedback) : Bool :=
  isDouble f.id && f.rating.double && f.comments.all Comment.doubles

/-- The rating is a finite number: not `NaN`, `Infinity` or `-Infinity`. -/
def JSNumber.finite : JSNumber → Bool
  | .int _ => true
  | _ => false

/-- The value of a feedback record as `JSON.stringify` writes it. -/
def feedbackJSON (f : Feedback) : JSValue :=
  .obj [(js "id", .num f.id), (js "name", .str f.name), (js "email", .str f.email),
    (js "rating", numberJSON f.rating), (js "feedback", .str f.feedback),
    (js "tags", .arr (f.tags.map JSValue.str)), (js "date", .str f.date),
    (js "comments", .arr (f.comments.map commentValue))]

/-- The text after a value in the output of `JSON.stringify`: nothing, a
comma, or a closing bracket or brace. -/
def Boundary (rest : JSString) : Prop :=
  ∀ c, rest.head? = some c → c = 44 ∨ c = 93 ∨ c = 125

/-- The text is cut into the tokens, whatever text follows it. -/
def LexesAny (text : JSString) (toks : List Token) : Prop :=
  toks.length ≤ text.length ∧
  ∀ f rest, lex (f + toks.length) (text ++ rest) = (lex f rest).map (toks ++ ·)

/-- The text is cut into the tokens when a boundary follows it. -/
def LexesTo (text : JSString) (toks : List Token) : Prop :=
  toks.length ≤ text.length ∧
  ∀ f rest, Boundary rest → lex (f + toks.length) (text ++ rest) = (lex f rest).map (toks ++ ·)

/-- The tokens are one value, whatever tokens follow them. -/
def ParsesTo (toks : List Token) (v : JSValue) : Prop :=
  ∀ f rest, 2 * (toks ++ rest).length ≤ f → parseValue f (toks ++ rest) = some (v, rest)

/-- The text is a JSON text of the value. -/
def Reads (text : JSString) (v : JSValue) : Prop :=
  ∃ toks, LexesTo text toks ∧ ParsesTo toks v

/-! ## Sample data used by the worked instances -/

/-- The page before anything was stored. -/
def emptyPage : Page := ⟨[], [], [], [], []⟩

/-- A filled-in form. -/
def sampleForm : FormFields :=
  { name := js "Ann", email := js "ann@example.org", rating := js "5",
    feedback := js "Great", tags := js "ui, fast" }

/-- A comment without replies. -/
def sampleComment : Comment :=
  { id := 2000, name := js "Bob", text := js "Agreed", date := js "2024-05-01T10:00:01.000Z",
    likes := 0, liked := false, replies := [] }

/-- A record with one comment. -/
def sampleFeedback : Feedback :=
  { id := 1000, name := js "Ann", email := js "ann@example.org", rating := .int 5,
    feedback := js "Great", tags := [js "ui", js "fast"],
    date := js "2024-05-01T10:00:00.000Z", comments := [sampleComment] }

/-- A page holding the sample record. -/
def samplePage : Page := ⟨[sampleFeedback], [], [], [], []⟩

/-- Run a sequence of form submissions, first call first. -/
def submitAll (calls : List (FormFields × Clock)) (p : Page) : Page :=
  calls.foldl (fun p call => handleFormSubmit call.1 call.2 p) p

/-- The comment a feedback id and a comment index denote, as `addReply` and
`likeComment` look it up. -/
def commentAt (feedbackId commentId : Int) (p : Page) : Option Comment :=
  (findFeedback feedbackId p.feedbackData).bind (fun feedback => arrayGet feedback.comments commentId)

/-- A form whose rating field is empty. -/
def blankRatingForm : FormFields :=
  { name := js "Ann", email := js "ann@example.org", rating := js "",
    feedback := js "Great", tags := js "" }


/-- A form whose rating field is 310 times the digit 9. -/
def longRatingForm : FormFields :=
  { name := js "Ann", email := js "ann@example.org", rating := List.replicate 310 57,
    feedback := js "Great", tags := js "" }

/-- A handler that led from `before` to `after` wrote the collection as it is
in `after` to `localStorage.feedbackData`, once, and then redrew the list from
that collection, once. -/
def SavedThenDrawn (before after : Page) : Prop :=
  getItem (js "feedbackData") after.localStorage = some (stringify after.feedbackData) ∧
  after.trace =
    before.trace ++ [.stored (stringify after.feedbackData), .rendered after.feedbackData]

/-- A record with the given id and tags. -/
def taggedFeedback (id : Int) (tags : List JSString) : Feedback :=
  { id := id, name := js "Ann", email := js "ann@example.org", rating := .int 5,
    feedback := js "Great", tags := tags, date := js "2024-05-01T10:00:00.000Z",
    comments := [] }

/-! # Theorems -/

/-! ## Lemmas on the state -/

@[simp] theorem saveFeedbackData_feedbackData (p : Page) :
    (saveFeedbackData p).feedbackData = p.feedbackData := rfl

@[simp] theorem displayFeedback_feedbackData (a : List Feedback) (p : Page) :
    (displayFeedback a p).feedbackData = p.feedbackData := rfl

@[simp] theorem displayFeedback_localStorage (a : List Feedback) (p : Page) :
    (displayFeedback a p).localStorage = p.localStorage := rfl

@[simp] theorem displayFeedback_displayed (a : List Feedback) (p : Page) :
    (displayFeedback a p).displayed = a := rfl

@[simp] theorem updateTagFilterOptions_feedbackData (a : List Feedback) (p : Page) :
    (updateTagFilterOptions a p).feedbackData = p.feedbackData := rfl

theorem handleFormSubmit_feedbackData (form : FormFields) (clock : Clock) (p : Page) :
    (handleFormSubmit form clock p).feedbackData = newFeedback form clock :: p.feedbackData := by
  unfold handleFormSubmit
  simp only
  split <;> rfl

theorem findFeedback_eq_none {feedbackId : Int} {l : List Feedback} :
    findFeedback feedbackId l = none ↔ ∀ f ∈ l, f.id ≠ feedbackId := by
  simp [findFeedback, List.find?_eq_none]

theorem findFeedback_split {feedbackId : Int} {l : List Feedback} {f : Feedback}
    (h : findFeedback feedbackId l = some f) (u : Feedback → Feedback) :
    ∃ pre post, l = pre ++ f :: post ∧ (∀ g ∈ pre, g.id ≠ feedbackId) ∧ f.id = feedbackId ∧
      updateFound feedbackId u l = pre ++ u f :: post := by
  induction l with
  | nil => simp [findFeedback] at h
  | cons g gs ih =>
    by_cases hg : g.id = feedbackId
    · have : f = g := by
        simp [findFeedback, List.find?_cons, hg] at h
        exact h.symm
      subst this
      exact ⟨[], gs, rfl, by simp, hg, by simp [updateFound, hg]⟩
    · have h' : findFeedback feedbackId gs = some f := by
        simpa [findFeedback, List.find?_cons, hg] using h
      obtain ⟨pre, post, h1, h2, h3, h4⟩ := ih h'
      refine ⟨g :: pre, post, by simp [h1], ?_, h3, by simp [updateFound, hg, h4]⟩
      intro x hx
      rcases List.mem_cons.mp hx with rfl | hx
      · exact hg
      · exact h2 x hx

theorem findFeedback_updateFound {feedbackId : Int} (u : Feedback → Feedback)
    (hu : ∀ f, (u f).id = f.id) (l : List Feedback) :
    findFeedback feedbackId (updateFound feedbackId u l) = (findFeedback feedbackId l).map u := by
  induction l with
  | nil => rfl
  | cons g gs ih =>
    by_cases hg : g.id = feedbackId
    · simp [updateFound, hg, findFeedback, List.find?_cons, hu]
    · have : ¬ (g.id == feedbackId) = true := by simpa using hg
      simp only [updateFound, hg, if_false, findFeedback, List.find?_cons, this] at ih ⊢
      simpa [findFeedback] using ih

theorem arrayGet_eq_some {α : Type} {xs : List α} {i : Int} {x : α} :
    arrayGet xs i = some x ↔ 0 ≤ i ∧ xs[i.toNat]? = some x := by
  unfold arrayGet
  by_cases h : 0 ≤ i <;> simp [h]

theorem arrayGet_eq_none {α : Type} {xs : List α} {i : Int} :
    arrayGet xs i = none ↔ i < 0 ∨ (xs.length : Int) ≤ i := by
  unfold arrayGet
  by_cases h : 0 ≤ i
  · simp only [h, if_true, List.getElem?_eq_none_iff]
    omega
  · simp only [h, if_false, true_iff]
    omega

theorem updateAt_split {α : Type} (u : α → α) {n : Nat} {xs : List α} {x : α}
    (h : xs[n]? = some x) :
    ∃ pre post, xs = pre ++ x :: post ∧ pre.length = n ∧ updateAt u n xs = pre ++ u x :: post := by
  induction xs generalizing n with
  | nil => simp at h
  | cons y ys ih =>
    cases n with
    | zero =>
      simp at h
      subst h
      exact ⟨[], ys, rfl, rfl, rfl⟩
    | succ m =>
      simp at h
      obtain ⟨pre, post, h1, h2, h3⟩ := ih h
      exact ⟨y :: pre, post, by simp [h1], by simp [h2], by simp [updateAt, h3]⟩

theorem updateAt_getElem? {α : Type} (u : α → α) (n : Nat) (xs : List α) :
    (updateAt u n xs)[n]? = (xs[n]?).map u := by
  induction xs generalizing n with
  | nil => simp [updateAt]
  | cons y ys ih =>
    cases n with
    | zero => simp [updateAt]
    | succ m => simp [updateAt, ih]

/-! ## Creation order -/

theorem submitAll_feedbackData (calls : List (FormFields × Clock)) (p : Page) :
    (submitAll calls p).feedbackData =
      (calls.map (fun call => newFeedback call.1 call.2)).reverse ++ p.feedbackData := by
  induction calls generalizing p with
  | nil => rfl
  | cons call rest ih =>
    have h := ih (handleFormSubmit call.1 call.2 p)
    simp only [submitAll, List.foldl_cons] at h ⊢
    rw [h, handleFormSubmit_feedbackData]
    simp

/-- C1: a form submission puts the new record in front of the records that
were there, which keep their order; after a sequence of submissions the
records created are in front, last call first, followed by the starting
collection. -/
theorem create_prepends (calls : List (FormFields × Clock)) (p : Page) :
    (∀ (form : FormFields) (clock : Clock),
      (handleFormSubmit form clock p).feedbackData = newFeedback form clock :: p.feedbackData) ∧
    (submitAll calls p).feedbackData =
      (calls.map (fun call => newFeedback call.1 call.2)).reverse ++ p.feedbackData :=
  ⟨fun form clock => handleFormSubmit_feedbackData form clock p,
    submitAll_feedbackData calls p⟩

/-! ## Tags -/

theorem splitComma_ne_nil (s : JSString) : splitComma s ≠ [] := by
  cases s with
  | nil => simp [splitComma]
  | cons c cs =>
    unfold splitComma
    split
    · simp
    · split <;> simp

theorem intercalate_splitComma (s : JSString) : List.intercalate [44] (splitComma s) = s := by
  induction s with
  | nil => rfl
  | cons c cs ih =>
    unfold splitComma
    by_cases hc : c = 44
    · subst hc
      rcases hs : splitComma cs with _ | ⟨q, qs⟩
      · exact absurd hs (splitComma_ne_nil cs)
      · rw [hs] at ih
        simp only [if_true]
        simp only [List.intercalate, List.intersperse, List.flatten_cons, List.nil_append,
          List.singleton_append] at ih ⊢
        rw [ih]
    · simp only [hc, if_false]
      rcases hs : splitComma cs with _ | ⟨q, qs⟩
      · exact absurd hs (splitComma_ne_nil cs)
      · rw [hs] at ih
        cases qs with
        | nil =>
          simp only [List.intercalate, List.intersperse, List.flatten_cons, List.flatten_nil,
            List.append_nil] at ih ⊢
          rw [ih]
        | cons r rs =>
          simp only [List.intercalate, List.intersperse, List.flatten_cons, List.cons_append]
            at ih ⊢
          rw [ih]

theorem splitComma_no_comma (s : JSString) : ∀ piece ∈ splitComma s, 44 ∉ piece := by
  induction s with
  | nil => simp [splitComma]
  | cons c cs ih =>
    unfold splitComma
    by_cases hc : c = 44
    · simp only [hc, if_true, List.mem_cons]
      rintro piece (rfl | h)
      · simp
      · exact ih piece h
    · simp only [hc, if_false]
      rcases hs : splitComma cs with _ | ⟨q, qs⟩
      · exact absurd hs (splitComma_ne_nil cs)
      · rw [hs] at ih
        simp only [List.mem_cons]
        rintro piece (rfl | h)
        · have := ih q (by simp)
          simp only [List.mem_cons, not_or]
          exact ⟨fun h => hc h.symm, this⟩
        · exact ih piece (by simp [h])

theorem trimEnd_split (s : JSString) :
    ∃ b, s = trimEnd s ++ b ∧ (∀ c ∈ b, isWhiteSpace c = true) ∧
      (∀ c, (trimEnd s).getLast? = some c → isWhiteSpace c = false) := by
  induction s with
  | nil => exact ⟨[], rfl, by simp, by simp [trimEnd]⟩
  | cons c cs ih =>
    obtain ⟨b, h1, h2, h3⟩ := ih
    unfold trimEnd
    rcases ht : trimEnd cs with _ | ⟨r, rs⟩
    · rw [ht] at h1
      by_cases hc : isWhiteSpace c = true
      · refine ⟨c :: cs, by simp [hc], ?_, by simp [hc]⟩
        intro x hx
        rcases List.mem_cons.mp hx with rfl | hx
        · exact hc
        · rw [h1] at hx
          exact h2 x (by simpa using hx)
      · refine ⟨cs, by simp [hc], ?_, ?_⟩
        · intro x hx
          rw [h1] at hx
          exact h2 x (by simpa using hx)
        · intro x hx
          simp only [hc] at hx
          simp at hx
          subst hx
          simpa using hc
    · rw [ht] at h1 h3
      refine ⟨b, by simp [h1], h2, ?_⟩
      intro x hx
      apply h3 x
      simpa [List.getLast?_cons_cons] using hx

theorem trimEnd_head? (s : JSString) (h : trimEnd s ≠ []) : (trimEnd s).head? = s.head? := by
  cases s with
  | nil => rfl
  | cons c cs =>
    unfold trimEnd at h ⊢
    rcases ht : trimEnd cs with _ | ⟨r, rs⟩
    · rw [ht] at h
      by_cases hc : isWhiteSpace c = true
      · simp [hc] at h
      · simp [hc]
    · simp

theorem trimEnd_eq_self (s : JSString)
    (h : ∀ c, s.getLast? = some c → isWhiteSpace c = false) : trimEnd s = s := by
  induction s with
  | nil => rfl
  | cons c cs ih =>
    unfold trimEnd
    cases cs with
    | nil =>
      have := h c (by simp)
      simp [trimEnd, this]
    | cons d ds =>
      have h' : ∀ x, (d :: ds).getLast? = some x → isWhiteSpace x = false := by
        intro x hx
        exact h x (by simpa [List.getLast?_cons_cons] using hx)
      rw [ih h']

theorem dropWhile_head? (s : JSString) :
    ∀ c, (s.dropWhile isWhiteSpace).head? = some c → isWhiteSpace c = false := by
  induction s with
  | nil => simp
  | cons d ds ih =>
    intro c hc
    by_cases hd : isWhiteSpace d = true
    · simp only [List.dropWhile_cons, hd, if_true] at hc
      exact ih c hc
    · simp only [List.dropWhile_cons, hd] at hc
      simp at hc
      subst hc
      simpa using hd

theorem dropWhile_eq_self (s : JSString)
    (h : ∀ c, s.head? = some c → isWhiteSpace c = false) : s.dropWhile isWhiteSpace = s := by
  cases s with
  | nil => rfl
  | cons c cs =>
    have := h c (by simp)
    simp [List.dropWhile_cons, this]

theorem trim_head? (s : JSString) :
    ∀ c, (trim s).head? = some c → isWhiteSpace c = false := by
  intro c hc
  unfold trim at hc
  by_cases hne : trimEnd (s.dropWhile isWhiteSpace) = []
  · simp [hne] at hc
  · rw [trimEnd_head? _ hne] at hc
    exact dropWhile_head? s c hc

theorem trim_getLast? (s : JSString) :
    ∀ c, (trim s).getLast? = some c → isWhiteSpace c = false := by
  obtain ⟨_, _, _, h⟩ := trimEnd_split (s.dropWhile isWhiteSpace)
  exact h

theorem trim_split (s : JSString) :
    ∃ a b, s = a ++ trim s ++ b ∧ (∀ c ∈ a, isWhiteSpace c = true) ∧
      (∀ c ∈ b, isWhiteSpace c = true) := by
  obtain ⟨b, h1, h2, _⟩ := trimEnd_split (s.dropWhile isWhiteSpace)
  refine ⟨s.takeWhile isWhiteSpace, b, ?_, ?_, h2⟩
  · unfold trim
    rw [List.append_assoc, ← h1, List.takeWhile_append_dropWhile]
  · intro c hc
    exact (List.mem_takeWhile_imp hc)

theorem trim_trim (s : JSString) : trim (trim s) = trim s := by
  have h1 := dropWhile_eq_self (trim s) (trim_head? s)
  have h2 := trimEnd_eq_self (trim s) (trim_getLast? s)
  have h3 : trim (trim s) = trimEnd ((trim s).dropWhile isWhiteSpace) := rfl
  rw [h3, h1, h2]

theorem parseTags_eq (tagsRaw : JSString) :
    parseTags tagsRaw = ((splitComma tagsRaw).map trim).filter (fun t => decide (t ≠ [])) := by
  unfold parseTags
  congr 1
  funext t
  cases t <;> simp [truthyString]

/-- C2: the tags of the record built from the tags field are the pieces of the
field between its commas (joined by commas the pieces give the field back and
no piece holds a comma), each piece trimmed (the piece is the trimmed piece
between two runs of white space, and the trimmed piece has no white space
at its start or at its end), the empty results dropped, order kept; so every
tag is non-empty and is its own trim. -/
theorem tags_split_trim (form : FormFields) (clock : Clock) :
    List.intercalate [44] (splitComma form.tags) = form.tags ∧
    (∀ piece ∈ splitComma form.tags, 44 ∉ piece) ∧
    (∀ piece : JSString, ∃ a b, piece = a ++ trim piece ++ b ∧
      (∀ c ∈ a, isWhiteSpace c = true) ∧ (∀ c ∈ b, isWhiteSpace c = true) ∧
      (∀ c, (trim piece).head? = some c → isWhiteSpace c = false) ∧
      (∀ c, (trim piece).getLast? = some c → isWhiteSpace c = false)) ∧
    (newFeedback form clock).tags =
      ((splitComma form.tags).map trim).filter (fun t => decide (t ≠ [])) ∧
    (∀ t ∈ (newFeedback form clock).tags, t ≠ [] ∧ trim t = t) ∧
    parseTags (js "ui, fast") = [js "ui", js "fast"] ∧
    parseTags (js "") = [] ∧ parseTags (js " , ,") = [] := by
  refine ⟨intercalate_splitComma _, splitComma_no_comma _, ?_, parseTags_eq _, ?_,
    by decide, by decide, by decide⟩
  · intro piece
    obtain ⟨a, b, h1, h2, h3⟩ := trim_split piece
    exact ⟨a, b, h1, h2, h3, trim_head? piece, trim_getLast? piece⟩
  · intro t ht
    have ht' : t ∈ parseTags form.tags := ht
    rw [parseTags_eq] at ht'
    obtain ⟨hm, hne⟩ := List.mem_filter.mp ht'
    obtain ⟨piece, _, rfl⟩ := List.mem_map.mp hm
    exact ⟨by simpa using hne, trim_trim piece⟩

/-! ## Deleting and filtering -/

theorem deleteFeedback_feedbackData (feedbackId : Int) (p : Page) :
    (deleteFeedback true feedbackId p).feedbackData =
      p.feedbackData.filter (fun f => decide (f.id ≠ feedbackId)) := by
  have h : (deleteFeedback true feedbackId p).feedbackData =
      p.feedbackData.filter (fun f => f.id != feedbackId) := by
    unfold deleteFeedback
    simp only [if_true]
    split <;> rfl
  rw [h]
  congr 1
  funext f
  by_cases h : f.id = feedbackId <;> simp [h]

theorem filterMatch_all (f : Feedback) : filterMatch (js "all") (js "all") f = true := by
  simp [filterMatch]

theorem filterFeedback_all (p : Page) :
    (filterFeedback (js "all") (js "all") p).displayed = p.feedbackData := by
  simp only [filterFeedback, displayFeedback_displayed]
  exact List.filter_eq_self.mpr (fun f _ => filterMatch_all f)

/-- C3: after a confirmed `deleteFeedback` no record of the collection, and so
none shown by the filter set to `all`/`all`, has the id; the collection is
the old one with exactly the records of that id taken out, order kept; and
when no record had the id the collection is the one before. -/
theorem delete_removes (p : Page) (feedbackId : Int) :
    (∀ f ∈ (deleteFeedback true feedbackId p).feedbackData, f.id ≠ feedbackId) ∧
    (∀ f ∈ (filterFeedback (js "all") (js "all") (deleteFeedback true feedbackId p)).displayed,
      f.id ≠ feedbackId) ∧
    (deleteFeedback true feedbackId p).feedbackData =
      p.feedbackData.filter (fun f => decide (f.id ≠ feedbackId)) ∧
    ((∀ f ∈ p.feedbackData, f.id ≠ feedbackId) →
      (deleteFeedback true feedbackId p).feedbackData = p.feedbackData) := by
  have key := deleteFeedback_feedbackData feedbackId p
  refine ⟨?_, ?_, key, ?_⟩
  · intro f hf
    rw [key] at hf
    simpa using (List.mem_filter.mp hf).2
  · intro f hf
    rw [filterFeedback_all, key] at hf
    simpa using (List.mem_filter.mp hf).2
  · intro h
    rw [key]
    exact List.filter_eq_self.mpr (fun f hf => by simpa using h f hf)

theorem parseInt_digit (n : Nat) (h1 : 1 ≤ n) (h5 : n ≤ 5) : parseInt [48 + n] = .int n := by
  interval_cases n <;> decide

theorem digit_ne_all (n : Nat) : ([48 + n] == js "all") = false := by
  have : js "all" = [97, 108, 108] := by decide
  rw [this]
  simp

theorem strictEq_int (r : JSNumber) (n : Int) : r.strictEq (.int n) = decide (r = .int n) := by
  cases r with
  | nan => simp [JSNumber.strictEq]
  | inf b => simp [JSNumber.strictEq]
  | int i =>
    simp only [JSNumber.strictEq, JSNumber.int.injEq]
    by_cases h : i = n <;> simp [h]

/-- C4: `filterFeedback` shows exactly the records that pass both selects, in
the order of the collection: with the rating select on the digit `n` (1 to 5)
those of rating `n`, with it on `all` every rating; with the tag select on
`all` every record, otherwise those whose tags hold the selected tag.  The
collection and `localStorage` stay as they were.  With `4`/`all` the records
of rating 4 are shown, with `all`/`all` the whole collection. -/
theorem filter_exact (p : Page) (selectedRating selectedTag : JSString) :
    (∀ n : Nat, 1 ≤ n → n ≤ 5 →
      (filterFeedback [48 + n] selectedTag p).displayed =
        p.feedbackData.filter (fun f =>
          decide (f.rating = .int n ∧ (selectedTag = js "all" ∨ selectedTag ∈ f.tags)))) ∧
    (filterFeedback (js "all") selectedTag p).displayed =
      p.feedbackData.filter (fun f => decide (selectedTag = js "all" ∨ selectedTag ∈ f.tags)) ∧
    (filterFeedback selectedRating selectedTag p).feedbackData = p.feedbackData ∧
    (filterFeedback selectedRating selectedTag p).localStorage = p.localStorage ∧
    (filterFeedback (js "4") (js "all") p).displayed =
      p.feedbackData.filter (fun f => decide (f.rating = .int 4)) ∧
    (filterFeedback (js "all") (js "all") p).displayed = p.feedbackData := by
  have hn : ∀ n : Nat, 1 ≤ n → n ≤ 5 →
      (filterFeedback [48 + n] selectedTag p).displayed =
        p.feedbackData.filter (fun f =>
          decide (f.rating = .int n ∧ (selectedTag = js "all" ∨ selectedTag ∈ f.tags))) := by
    intro n h1 h5
    simp only [filterFeedback, displayFeedback_displayed]
    congr 1
    funext f
    simp only [filterMatch, digit_ne_all, parseInt_digit n h1 h5, Bool.false_or, strictEq_int]
    by_cases hr : f.rating = .int n <;> by_cases ht : selectedTag = js "all" <;>
      simp [hr, ht, List.contains, List.elem_eq_mem]
  refine ⟨hn, ?_, rfl, rfl, ?_, filterFeedback_all p⟩
  · simp only [filterFeedback, displayFeedback_displayed]
    congr 1
    funext f
    by_cases ht : selectedTag = js "all" <;>
      simp [filterMatch, ht, List.contains, List.elem_eq_mem]
  · simp only [filterFeedback, displayFeedback_displayed]
    congr 1
    funext f
    have h4 : parseInt (js "4") = .int 4 := by decide
    have ha : (js "4" == js "all") = false := by decide
    simp only [filterMatch, h4, ha, strictEq_int]
    simp

/-! ## Comments, replies and likes -/

theorem likeComment_feedbackData {p : Page} {feedbackId commentId : Int} {feedback : Feedback}
    {comment : Comment} (hf : findFeedback feedbackId p.feedbackData = some feedback)
    (hc : arrayGet feedback.comments commentId = some comment) :
    (likeComment feedbackId commentId p).feedbackData =
      updateFound feedbackId
        (fun feedback =>
          { feedback with comments := updateAt toggleLike commentId.toNat feedback.comments })
        p.feedbackData := by
  simp [likeComment, hf, hc]

theorem addReply_feedbackData {p : Page} {feedbackId commentId : Int} {feedback : Feedback}
    {comment : Comment} (text : JSString) (clock : Clock)
    (hf : findFeedback feedbackId p.feedbackData = some feedback)
    (hc : arrayGet feedback.comments commentId = some comment) :
    (addReply feedbackId commentId text clock p).feedbackData =
      updateFound feedbackId
        (fun feedback =>
          { feedback with
            comments := updateAt (fun comment =>
              { comment with
                replies := comment.replies ++ [newReply text clock p.localStorage] })
              commentId.toNat feedback.comments })
        p.feedbackData := by
  simp [addReply, hf, hc]

theorem actuallySubmitComment_feedbackData {p : Page} {feedbackId : Int} {feedback : Feedback}
    (text name : JSString) (clock : Clock)
    (hf : findFeedback feedbackId p.feedbackData = some feedback) :
    (actuallySubmitComment feedbackId text name clock p).feedbackData =
      updateFound feedbackId
        (fun feedback =>
          { feedback with comments := feedback.comments ++ [newComment text name clock] })
        p.feedbackData := by
  simp [actuallySubmitComment, hf]

theorem orZero_eq (likes : Int) : orZero likes = likes := by
  unfold orZero
  split
  · rfl
  · omega

theorem toggleLike_eq (comment : Comment) :
    toggleLike comment =
      { comment with
        liked := !comment.liked
        likes := if comment.liked = true then max 0 (comment.likes - 1)
          else comment.likes + 1 } := by
  cases h : comment.liked <;> simp [toggleLike, orZero_eq, h]

/-- C5: for a feedback id that `find` resolves to a record and an index inside
its comments, `likeComment` changes the collection in one place only: the
first record with the id gets, at that index, the comment with `liked`
negated and `likes` raised by one when it becomes liked, lowered by one but
not below 0 when it becomes unliked; a count that was not negative stays not
negative.  The other fields of the comment, the other comments and the other
records are the ones before. -/
theorem like_toggles (p : Page) (feedbackId commentId : Int) (feedback : Feedback)
    (comment : Comment) (hf : findFeedback feedbackId p.feedbackData = some feedback)
    (hc : arrayGet feedback.comments commentId = some comment) :
    ∃ before after earlier later,
      p.feedbackData = before ++ feedback :: after ∧ (∀ g ∈ before, g.id ≠ feedbackId) ∧
      feedback.comments = earlier ++ comment :: later ∧ (earlier.length : Int) = commentId ∧
      (likeComment feedbackId commentId p).feedbackData =
        before ++
          { feedback with
            comments := earlier ++
              { comment with
                liked := !comment.liked
                likes := if comment.liked = true then max 0 (comment.likes - 1)
                  else comment.likes + 1 } :: later } :: after ∧
      (0 ≤ comment.likes →
        0 ≤ (if comment.liked = true then max 0 (comment.likes - 1) else comment.likes + 1)) := by
  obtain ⟨h0, hget⟩ := arrayGet_eq_some.mp hc
  obtain ⟨before, after, h1, h2, _, h4⟩ := findFeedback_split hf
    (fun feedback =>
      { feedback with comments := updateAt toggleLike commentId.toNat feedback.comments })
  obtain ⟨earlier, later, k1, k2, k3⟩ := updateAt_split toggleLike hget
  refine ⟨before, after, earlier, later, h1, h2, k1, by omega, ?_, ?_⟩
  · rw [likeComment_feedbackData hf hc, h4, k3, toggleLike_eq]
  · intro hl
    split
    · exact le_max_left _ _
    · omega

/-- C5, worked instance: liking the comment of the sample record. -/
theorem like_toggles_witness :
    findFeedback 1000 samplePage.feedbackData = some sampleFeedback ∧
    arrayGet sampleFeedback.comments 0 = some sampleComment ∧
    ∃ before after earlier later,
      samplePage.feedbackData = before ++ sampleFeedback :: after ∧
      (∀ g ∈ before, g.id ≠ 1000) ∧
      sampleFeedback.comments = earlier ++ sampleComment :: later ∧
      (earlier.length : Int) = 0 ∧
      (likeComment 1000 0 samplePage).feedbackData =
        before ++
          { sampleFeedback with
            comments := earlier ++
              { sampleComment with
                liked := !sampleComment.liked
                likes := if sampleComment.liked = true then max 0 (sampleComment.likes - 1)
                  else sampleComment.likes + 1 } :: later } :: after ∧
      (0 ≤ sampleComment.likes →
        0 ≤ (if sampleComment.liked = true then max 0 (sampleComment.likes - 1)
          else sampleComment.likes + 1)) :=
  ⟨by decide, by decide,
    like_toggles samplePage 1000 0 sampleFeedback sampleComment (by decide) (by decide)⟩

theorem commentAt_updateFound {feedbackId commentId : Int} (u : Comment → Comment)
    (l : List Feedback) (h0 : 0 ≤ commentId) :
    (findFeedback feedbackId (updateFound feedbackId
        (fun feedback => { feedback with comments := updateAt u commentId.toNat feedback.comments })
        l)).bind (fun feedback => arrayGet feedback.comments commentId) =
      ((findFeedback feedbackId l).bind
        (fun feedback => arrayGet feedback.comments commentId)).map u := by
  rw [findFeedback_updateFound
    (fun feedback => { feedback with comments := updateAt u commentId.toNat feedback.comments })
    (fun _ => rfl)]
  cases findFeedback feedbackId l with
  | none => rfl
  | some f => simp [arrayGet, h0, updateAt_getElem?]

/-- C6: for a feedback id that `find` resolves to a record: after
`actuallySubmitComment` the record's comments are the old ones followed by
the new comment, which has `likes` 0, `liked` false and no replies; after
`addReply` on it the comment has the same `likes` and `liked` and the new
reply is the last of its replies; the first `likeComment` makes it `likes` 1,
`liked` true, and the second `likes` 0, `liked` false. -/
theorem comment_reply_like (p : Page) (feedbackId : Int) (feedback : Feedback)
    (text name replyText : JSString) (clock replyClock : Clock)
    (hf : findFeedback feedbackId p.feedbackData = some feedback) :
    let index : Int := feedback.comments.length
    let p1 := actuallySubmitComment feedbackId text name clock p
    let p2 := addReply feedbackId index replyText replyClock p1
    let p3 := likeComment feedbackId index p2
    let p4 := likeComment feedbackId index p3
    let reply := newReply replyText replyClock p1.localStorage
    findFeedback feedbackId p1.feedbackData =
      some { feedback with comments := feedback.comments ++
        [{ id := clock.now, name := name, text := text, date := clock.iso, likes := 0,
           liked := false, replies := [] }] } ∧
    commentAt feedbackId index p2 =
      some { id := clock.now, name := name, text := text, date := clock.iso, likes := 0,
             liked := false, replies := [] ++ [reply] } ∧
    reply.text = replyText ∧
    commentAt feedbackId index p3 =
      some { id := clock.now, name := name, text := text, date := clock.iso, likes := 1,
             liked := true, replies := [reply] } ∧
    commentAt feedbackId index p4 =
      some { id := clock.now, name := name, text := text, date := clock.iso, likes := 0,
             liked := false, replies := [reply] } := by
  intro index p1 p2 p3 p4 reply
  have h0 : (0 : Int) ≤ index := Int.natCast_nonneg _
  have e1 : findFeedback feedbackId p1.feedbackData =
      some { feedback with comments := feedback.comments ++ [newComment text name clock] } := by
    show findFeedback feedbackId (actuallySubmitComment feedbackId text name clock p).feedbackData = _
    rw [actuallySubmitComment_feedbackData text name clock hf,
      findFeedback_updateFound
        (fun feedback =>
          { feedback with comments := feedback.comments ++ [newComment text name clock] })
        (fun _ => rfl), hf]
    rfl
  have c1 : commentAt feedbackId index p1 = some (newComment text name clock) := by
    simp [commentAt, e1, arrayGet, index]
  have step : ∀ (q q' : Page) (u : Comment → Comment) (c : Comment),
      commentAt feedbackId index q = some c →
      q'.feedbackData = updateFound feedbackId
        (fun feedback => { feedback with comments := updateAt u index.toNat feedback.comments })
        q.feedbackData →
      commentAt feedbackId index q' = some (u c) := by
    intro q q' u c hq hq'
    unfold commentAt at hq ⊢
    rw [hq', commentAt_updateFound u _ h0, hq]
    rfl
  have found : ∀ (q : Page) (c : Comment), commentAt feedbackId index q = some c →
      ∃ f, findFeedback feedbackId q.feedbackData = some f ∧
        arrayGet f.comments index = some c := by
    intro q c hq
    unfold commentAt at hq
    cases hfq : findFeedback feedbackId q.feedbackData with
    | none => simp [hfq] at hq
    | some f => exact ⟨f, rfl, by simpa [hfq] using hq⟩
  have c2 : commentAt feedbackId index p2 =
      some { newComment text name clock with replies := [] ++ [reply] } := by
    obtain ⟨f, hf1, hc1⟩ := found p1 _ c1
    exact step p1 p2 _ _ c1 (addReply_feedbackData replyText replyClock hf1 hc1)
  have c3 : commentAt feedbackId index p3 =
      some (toggleLike { newComment text name clock with replies := [] ++ [reply] }) := by
    obtain ⟨f, hf2, hc2⟩ := found p2 _ c2
    exact step p2 p3 _ _ c2 (likeComment_feedbackData hf2 hc2)
  have c4 : commentAt feedbackId index p4 =
      some (toggleLike (toggleLike
        { newComment text name clock with replies := [] ++ [reply] })) := by
    obtain ⟨f, hf3, hc3⟩ := found p3 _ c3
    exact step p3 p4 _ _ c3 (likeComment_feedbackData hf3 hc3)
  exact ⟨e1, c2, rfl, c3, c4⟩

/-- C6, worked instance: comment, reply and two likes on the sample record. -/
theorem comment_reply_like_witness :
    findFeedback 1000 samplePage.feedbackData = some sampleFeedback ∧
    commentAt 1000 1
      (likeComment 1000 1 (likeComment 1000 1 (addReply 1000 1 (js "Thanks") ⟨3001, js "t2"⟩
        (actuallySubmitComment 1000 (js "Nice") (js "Cy") ⟨3000, js "t1"⟩ samplePage)))) =
      some { id := 3000, name := js "Cy", text := js "Nice", date := js "t1", likes := 0,
             liked := false,
             replies := [newReply (js "Thanks") ⟨3001, js "t2"⟩
               (actuallySubmitComment 1000 (js "Nice") (js "Cy") ⟨3000, js "t1"⟩
                 samplePage).localStorage] } :=
  ⟨by decide,
    (comment_reply_like samplePage 1000 sampleFeedback (js "Nice") (js "Cy") (js "Thanks")
      ⟨3000, js "t1"⟩ ⟨3001, js "t2"⟩ (by decide)).2.2.2.2⟩

/-- C7: when no record has the feedback id, `actuallySubmitComment`, `addReply`
and `likeComment` return the page they were given, and so do `addReply` and
`likeComment` when the record is found but the index is negative or not
below the number of its comments: the collection, `localStorage` and the
trace of writes and redraws are the ones before. -/
theorem missing_target_noop (p : Page) (feedbackId commentId : Int) (text name : JSString)
    (clock : Clock)
    (h : (∀ f ∈ p.feedbackData, f.id ≠ feedbackId) ∨
      ∃ feedback, findFeedback feedbackId p.feedbackData = some feedback ∧
        (commentId < 0 ∨ (feedback.comments.length : Int) ≤ commentId)) :
    ((∀ f ∈ p.feedbackData, f.id ≠ feedbackId) →
      actuallySubmitComment feedbackId text name clock p = p) ∧
    addReply feedbackId commentId text clock p = p ∧
    likeComment feedbackId commentId p = p := by
  refine ⟨?_, ?_, ?_⟩
  · intro hn
    simp [actuallySubmitComment, findFeedback_eq_none.mpr hn]
  · rcases h with hn | ⟨feedback, hf, hi⟩
    · simp [addReply, findFeedback_eq_none.mpr hn]
    · simp [addReply, hf, arrayGet_eq_none.mpr hi]
  · rcases h with hn | ⟨feedback, hf, hi⟩
    · simp [likeComment, findFeedback_eq_none.mpr hn]
    · simp [likeComment, hf, arrayGet_eq_none.mpr hi]

/-- C7, worked instance: index 1 on the sample record, which has one comment. -/
theorem missing_target_noop_witness :
    (∃ feedback, findFeedback 1000 samplePage.feedbackData = some feedback ∧
      ((1 : Int) < 0 ∨ (feedback.comments.length : Int) ≤ 1)) ∧
    addReply 1000 1 (js "x") ⟨5, js "t"⟩ samplePage = samplePage ∧
    likeComment 1000 1 samplePage = samplePage :=
  ⟨⟨sampleFeedback, by decide, Or.inr (by decide)⟩,
    (missing_target_noop samplePage 1000 1 (js "x") (js "y") ⟨5, js "t"⟩
      (Or.inr ⟨sampleFeedback, by decide, Or.inr (by decide)⟩)).2⟩

/-! ## Ids -/

/-- C10: two submissions that read the same value of `Date.now()` leave two
records with the same id in a collection that started empty. -/
theorem same_clock_same_id :
    ((submitAll [(sampleForm, ⟨1000, js "t"⟩), (sampleForm, ⟨1000, js "t"⟩)]
      emptyPage).feedbackData.map (fun f => f.id)) = [1000, 1000] ∧
    ¬ ((submitAll [(sampleForm, ⟨1000, js "t"⟩), (sampleForm, ⟨1000, js "t"⟩)]
      emptyPage).feedbackData.map (fun f => f.id)).Nodup := by
  constructor
  · decide
  · decide

/-! ## Numbers in the stored text -/

theorem digitsValue_append (ds : JSString) (d : Nat) :
    digitsValue (ds ++ [d]) = 10 * digitsValue ds + (d - 48) := by
  simp [digitsValue, List.foldl_append]

theorem natDigits_spec (fuel : Nat) : ∀ (n : Nat) (acc : JSString), n < fuel →
    ∃ ds, natDigits fuel n acc = ds ++ acc ∧ ds ≠ [] ∧ (∀ c ∈ ds, 48 ≤ c ∧ c ≤ 57) ∧
      digitsValue ds = n ∧ (ds.head? = some 48 → ds = [48]) := by
  induction fuel with
  | zero => intro n acc h; omega
  | succ fuel ih =>
    intro n acc h
    unfold natDigits
    by_cases hn : n < 10
    · refine ⟨[48 + n], by simp [hn], by simp, ?_, by simp [digitsValue], ?_⟩
      · intro c hc
        simp at hc
        omega
      · intro h0
        simp at h0
        simp [h0]
    · obtain ⟨ds, h1, h2, h3, h4, h5⟩ := ih (n / 10) ((48 + n % 10) :: acc) (by omega)
      refine ⟨ds ++ [48 + n % 10], by simp [hn, h1], by simp, ?_, ?_, ?_⟩
      · intro c hc
        rcases List.mem_append.mp hc with hc | hc
        · exact h3 c hc
        · simp at hc
          omega
      · rw [digitsValue_append, h4]
        omega
      · intro h0
        have hd : ds.head? = some 48 := by
          cases ds with
          | nil => exact absurd rfl h2
          | cons d ds' => simpa using h0
        have := h5 hd
        subst this
        simp [digitsValue] at h4
        omega

theorem natToString_spec (n : Nat) :
    natToString n ≠ [] ∧ (∀ c ∈ natToString n, 48 ≤ c ∧ c ≤ 57) ∧
      digitsValue (natToString n) = n ∧
      ((natToString n).head? = some 48 → natToString n = [48]) := by
  obtain ⟨ds, h1, h2, h3, h4, h5⟩ := natDigits_spec (n + 1) n [] (by omega)
  have : natToString n = ds := by simpa [natToString] using h1
  rw [this]
  exact ⟨h2, h3, h4, h5⟩

theorem takeDigits_append (ds rest : JSString) (hd : ∀ c ∈ ds, 48 ≤ c ∧ c ≤ 57)
    (hr : ∀ c, rest.head? = some c → ¬ (48 ≤ c ∧ c ≤ 57)) :
    takeDigits (ds ++ rest) = (ds, rest) := by
  induction ds with
  | nil =>
    cases rest with
    | nil => rfl
    | cons c cs =>
      have := hr c rfl
      simp [takeDigits, this]
  | cons d ds ih =>
    have h1 := hd d (by simp)
    have h2 := ih (fun c hc => hd c (by simp [hc]))
    simp [takeDigits, h1, h2]

theorem boundary_not_digit {rest : JSString} (h : Boundary rest) :
    ∀ c, rest.head? = some c → ¬ (48 ≤ c ∧ c ≤ 57) := by
  intro c hc
  rcases h c hc with h | h | h <;> omega

theorem lexNumber_nat (n : Nat) (sign : Int) (rest : JSString) (h : Boundary rest) :
    lexUnsigned sign (natToString n ++ rest) =
      some (((sign * (n : Int) : Int) : ℚ), rest) := by
  obtain ⟨h1, h2, h3, h4⟩ := natToString_spec n
  have hip : lexIntPart (natToString n ++ rest) = some (natToString n, rest) := by
    rcases hs : natToString n with _ | ⟨d, ds⟩
    · exact absurd hs h1
    · by_cases hd : d = 48
      · subst hd
        have := h4 (by simp [hs])
        rw [hs] at this
        simp at this
        subst this
        simp [lexIntPart]
      · have ht := takeDigits_append (natToString n) rest h2 (boundary_not_digit h)
        rw [hs] at ht
        have : lexIntPart (d :: ds ++ rest) =
            match takeDigits (d :: ds ++ rest) with
            | ([], _) => none
            | (ds, rest) => some (ds, rest) := by
          simp only [List.cons_append]
          unfold lexIntPart
          split
          · rename_i heq
            simp at heq
            exact absurd heq.1 hd
          · rfl
        rw [this, ht]
  have hfr : lexFraction rest = some ([], rest) := by
    cases rest with
    | nil => rfl
    | cons c cs =>
      have hc : c ≠ 46 := by
        rcases h c rfl with h | h | h <;> omega
      unfold lexFraction
      split
      · rename_i heq
        simp at heq
        exact absurd heq.1 hc
      · rfl
  have hex : lexExponent rest = some (0, rest) := by
    cases rest with
    | nil => rfl
    | cons c cs =>
      have hc : c ≠ 101 ∧ c ≠ 69 := by
        rcases h c rfl with h | h | h <;> omega
      unfold lexExponent
      split
      · rename_i heq
        simp at heq
        exact absurd heq.1 hc.1
      · rename_i heq
        simp at heq
        exact absurd heq.1 hc.2
      · rfl
  simp only [lexUnsigned, hip, hfr, hex, List.append_nil, h3]
  simp [Rat.mkRat_one]

theorem digitsValue_zeros (ds : JSString) (z : Nat) :
    digitsValue (ds ++ List.replicate z 48) = digitsValue ds * 10 ^ z := by
  induction z with
  | zero => simp
  | succ z ih =>
    rw [List.replicate_succ', ← List.append_assoc, digitsValue_append, ih, pow_succ]
    simp only [Nat.sub_self, Nat.add_zero]
    ring

theorem stripZeros_spec (ds : JSString) :
    ∃ z, ds = stripZeros ds ++ List.replicate z 48 := by
  induction ds with
  | nil => exact ⟨0, rfl⟩
  | cons c cs ih =>
    obtain ⟨z, hz⟩ := ih
    unfold stripZeros
    cases hs : stripZeros cs with
    | nil =>
      rw [hs] at hz
      by_cases hc : c = 48
      · refine ⟨z + 1, ?_⟩
        simp only [hc, if_true, List.nil_append, List.replicate_succ]
        rw [← List.nil_append (List.replicate z 48), ← hz]
      · refine ⟨z, ?_⟩
        simp only [hc, if_false]
        rw [List.singleton_append, ← List.nil_append (List.replicate z 48), ← hz]
    | cons r rs =>
      rw [hs] at hz
      refine ⟨z, ?_⟩
      simp only [List.cons_append]
      rw [← List.cons_append, ← hz]

theorem lexIntPart_digit (d : Nat) (hd : 48 < d ∧ d ≤ 57) (rest : JSString)
    (hr : ∀ c, rest.head? = some c → ¬ (48 ≤ c ∧ c ≤ 57)) :
    lexIntPart (d :: rest) = some ([d], rest) := by
  have ht := takeDigits_append [d] rest (by intro c hc; simp at hc; omega) hr
  simp only [List.singleton_append] at ht
  unfold lexIntPart
  split
  · rename_i heq
    simp at heq
    omega
  · rw [ht]

theorem lexFraction_digits (ds rest : JSString) (hne : ds ≠ [])
    (hd : ∀ c ∈ ds, 48 ≤ c ∧ c ≤ 57)
    (hr : ∀ c, rest.head? = some c → ¬ (48 ≤ c ∧ c ≤ 57)) :
    lexFraction (46 :: (ds ++ rest)) = some (ds, rest) := by
  have ht := takeDigits_append ds rest hd hr
  cases ds with
  | nil => exact absurd rfl hne
  | cons c cs =>
    unfold lexFraction
    simp only [ht]

theorem lexFraction_none (c : Nat) (rest : JSString) (hc : c ≠ 46) :
    lexFraction (c :: rest) = some ([], c :: rest) := by
  unfold lexFraction
  split
  · rename_i heq
    simp at heq
    exact absurd heq.1 hc
  · rfl

theorem lexExponent_plus (m : Nat) (rest : JSString) (h : Boundary rest) :
    lexExponent (101 :: 43 :: (natToString m ++ rest)) = some ((m : Int), rest) := by
  obtain ⟨h1, h2, h3, _⟩ := natToString_spec m
  have ht := takeDigits_append (natToString m) rest h2 (boundary_not_digit h)
  simp only [lexExponent, ht]
  cases hs : natToString m with
  | nil => exact absurd hs h1
  | cons c cs =>
    rw [← hs, h3]
    simp

theorem decimalToString_head (v : Nat) :
    ∃ c cs, decimalToString v = c :: cs ∧ 48 ≤ c ∧ c ≤ 57 := by
  obtain ⟨h1, h2, _, _⟩ := natToString_spec v
  obtain ⟨z, hz⟩ := stripZeros_spec (natToString v)
  unfold decimalToString
  simp only
  split
  · cases hs : natToString v with
    | nil => exact absurd hs h1
    | cons c cs => exact ⟨c, cs, rfl, h2 c (by simp [hs])⟩
  · cases hs : stripZeros (natToString v) with
    | nil =>
      cases hn : natToString v with
      | nil => exact absurd hn h1
      | cons c cs => exact ⟨c, cs, rfl, h2 c (by simp [hn])⟩
    | cons d rest =>
      refine ⟨d, _, rfl, h2 d ?_⟩
      rw [hz, hs]
      simp

theorem lexUnsigned_decimal (v : Nat) (sign : Int) (rest : JSString) (h : Boundary rest) :
    lexUnsigned sign (decimalToString v ++ rest) =
      some (((sign * (v : Int) : Int) : ℚ), rest) := by
  obtain ⟨h1, h2, h3, h4⟩ := natToString_spec v
  obtain ⟨z, hz⟩ := stripZeros_spec (natToString v)
  unfold decimalToString
  simp only
  by_cases hl : (natToString v).length ≤ 21
  · simp only [hl, if_true]
    exact lexNumber_nat v sign rest h
  · simp only [hl, if_false]
    cases hs : stripZeros (natToString v) with
    | nil =>
      exfalso
      rw [hs, List.nil_append] at hz
      cases z with
      | zero => exact h1 (by simpa using hz)
      | succ z =>
        have := h4 (by rw [hz]; simp [List.replicate_succ])
        rw [this] at hl
        simp at hl
    | cons d tl =>
      rw [hs] at hz
      have hd : 48 ≤ d ∧ d ≤ 57 := h2 d (by rw [hz]; simp)
      have hd48 : d ≠ 48 := by
        intro e
        have := h4 (by rw [hz, e]; simp)
        rw [this] at hl
        simp at hl
      have htl : ∀ c ∈ tl, 48 ≤ c ∧ c ≤ 57 := by
        intro c hc
        exact h2 c (by rw [hz]; simp [hc])
      have hlen : (natToString v).length - 1 = tl.length + z := by
        rw [hz]
        simp
      have hval : digitsValue (d :: tl) * 10 ^ z = v := by
        rw [← digitsValue_zeros, ← hz, h3]
      have hex := lexExponent_plus ((natToString v).length - 1) rest h
      rw [hlen] at hex ⊢
      have hnd : ∀ (r : JSString) (c : Nat), (101 :: r).head? = some c →
          ¬ (48 ≤ c ∧ c ≤ 57) := by
        intro r c hc
        simp at hc
        omega
      by_cases ht : tl = []
      · subst ht
        simp only [if_true, List.cons_append, List.nil_append]
        have hip := lexIntPart_digit d (by omega)
          (101 :: 43 :: (natToString (([] : JSString).length + z) ++ rest))
          (hnd _)
        have hfr := lexFraction_none 101
          (43 :: (natToString (([] : JSString).length + z) ++ rest)) (by omega)
        simp only [lexUnsigned, hip, hfr, hex]
        simp only [List.append_nil, List.length_nil] at hval ⊢
        rw [← hval]
        simp [Rat.mkRat_one]
        ring
      · simp only [ht, if_false, List.cons_append, List.nil_append, List.append_assoc]
        have hip := lexIntPart_digit d (by omega)
          (46 :: (tl ++ 101 :: 43 :: (natToString (tl.length + z) ++ rest)))
          (by intro c hc; simp at hc; omega)
        have hfr := lexFraction_digits tl
          (101 :: 43 :: (natToString (tl.length + z) ++ rest)) ht htl (hnd _)
        simp only [lexUnsigned, hip, hfr, hex]
        have hsh : ((tl.length + z : Nat) : Int) - (tl.length : Int) = (z : Int) := by
          push_cast
          ring
        rw [hsh, ← hval]
        simp [Rat.mkRat_one]
        ring

theorem lexNumber_numberToString (i : Int) (rest : JSString) (h : Boundary rest) :
    lexNumber (numberToString i ++ rest) =
      some ((((if i < 0 then -1 else 1) *
        (shortestDecimal i.natAbs (natToString i.natAbs).length : Int) : Int) : ℚ), rest) := by
  unfold numberToString
  simp only
  by_cases hi : i < 0
  · simp only [hi, if_true, List.cons_append]
    unfold lexNumber
    simp only
    exact lexUnsigned_decimal _ (-1) rest h
  · simp only [hi, if_false]
    obtain ⟨c, cs, hcs, hc⟩ :=
      decimalToString_head (shortestDecimal i.natAbs (natToString i.natAbs).length)
    have hu := lexUnsigned_decimal
      (shortestDecimal i.natAbs (natToString i.natAbs).length) 1 rest h
    rw [hcs] at hu ⊢
    unfold lexNumber
    split
    · rename_i r heq
      simp at heq
      omega
    · exact hu

theorem hexValue_hexDigit : ∀ d : Nat, d < 16 → hexValue (hexDigit d) = some d := by
  decide

theorem lexString_unicodeEscape (c : Nat) (hc : c < 65536) (tail : JSString) :
    lexString (unicodeEscape c ++ tail) = (lexString tail).map (fun x => (c :: x.1, x.2)) := by
  have e : ((c / 4096 % 16 * 16 + c / 256 % 16) * 16 + c / 16 % 16) * 16 + c % 16 = c := by
    omega
  simp only [unicodeEscape, List.cons_append, List.nil_append]
  rw [lexString.eq_def]
  simp only [show (92 : Nat) ≠ 34 by decide, if_false, if_true, hexUnit,
    hexValue_hexDigit _ (Nat.mod_lt _ (by decide : 0 < 16)), e]

theorem lexString_literal (c : Nat) (h34 : c ≠ 34) (h92 : c ≠ 92) (h32 : ¬ c < 32)
    (tail : JSString) :
    lexString (c :: tail) = (lexString tail).map (fun x => (c :: x.1, x.2)) := by
  rw [lexString.eq_def]
  simp only [h34, h92, h32, if_false]

theorem lexString_simpleEscape (e u : Nat) (h : simpleEscape e = some u) (h117 : e ≠ 117)
    (tail : JSString) :
    lexString (92 :: e :: tail) = (lexString tail).map (fun x => (u :: x.1, x.2)) := by
  rw [lexString.eq_def]
  simp only [show (92 : Nat) ≠ 34 by decide, if_false, if_true, h117, h]

theorem lexString_escapeUnit (c : Nat)
    (hlt : c < 32 ∨ (55296 ≤ c ∧ c ≤ 57343) → c < 65536) (tail : JSString) :
    lexString (escapeUnit c ++ tail) = (lexString tail).map (fun x => (c :: x.1, x.2)) := by
  unfold escapeUnit
  by_cases h8 : c = 8
  · subst h8; exact lexString_simpleEscape 98 8 (by decide) (by decide) tail
  by_cases h9 : c = 9
  · subst h9; exact lexString_simpleEscape 116 9 (by decide) (by decide) tail
  by_cases h10 : c = 10
  · subst h10; exact lexString_simpleEscape 110 10 (by decide) (by decide) tail
  by_cases h12 : c = 12
  · subst h12; exact lexString_simpleEscape 102 12 (by decide) (by decide) tail
  by_cases h13 : c = 13
  · subst h13; exact lexString_simpleEscape 114 13 (by decide) (by decide) tail
  by_cases h34 : c = 34
  · subst h34; exact lexString_simpleEscape 34 34 (by decide) (by decide) tail
  by_cases h92 : c = 92
  · subst h92; exact lexString_simpleEscape 92 92 (by decide) (by decide) tail
  simp only [h8, h9, h10, h12, h13, h34, h92, if_false]
  by_cases hs : c < 32 ∨ (55296 ≤ c ∧ c ≤ 57343)
  · simp only [hs, if_true]
    exact lexString_unicodeEscape c (hlt hs) tail
  · simp only [hs, if_false, List.singleton_append]
    exact lexString_literal c h34 h92 (fun h => hs (Or.inl h)) tail

theorem lexString_quote (rest : JSString) : lexString (34 :: rest) = some ([], rest) := by
  rw [lexString.eq_def]
  simp

theorem lexString_quoteUnits (s rest : JSString) :
    lexString (quoteUnits s ++ 34 :: rest) = some (s, rest) := by
  induction s using quoteUnits.induct with
  | case1 => simp [quoteUnits, lexString_quote]
  | case2 c =>
    simp only [quoteUnits]
    rw [lexString_escapeUnit c (by omega), lexString_quote]
    rfl
  | case3 c d ds h ih =>
    simp only [quoteUnits, h, and_self, if_true, List.cons_append]
    obtain ⟨⟨h1, h2⟩, h3, h4⟩ := h
    rw [lexString_literal c (by omega) (by omega) (by omega),
      lexString_literal d (by omega) (by omega) (by omega), ih]
    rfl
  | case4 c d ds h ih =>
    simp only [quoteUnits, h, if_false]
    rw [List.append_assoc, lexString_escapeUnit c (by omega), ih]
    rfl

/-! ## Cutting the stored text into tokens -/

theorem intercalate_nil' {α : Type} (sep : List α) : List.intercalate sep [] = [] := rfl

theorem intercalate_one {α : Type} (sep x : List α) : List.intercalate sep [x] = x := by
  simp [List.intercalate, List.intersperse]

theorem intercalate_cons_cons {α : Type} (sep x y : List α) (l : List (List α)) :
    List.intercalate sep (x :: y :: l) = x ++ sep ++ List.intercalate sep (y :: l) := by
  simp [List.intercalate, List.intersperse]

theorem LexesAny.toVal {text : JSString} {toks : List Token} (h : LexesAny text toks) :
    LexesTo text toks :=
  ⟨h.1, fun f rest _ => h.2 f rest⟩

theorem LexesAny.append {a b : JSString} {ta tb : List Token} (ha : LexesAny a ta)
    (hb : LexesAny b tb) : LexesAny (a ++ b) (ta ++ tb) := by
  refine ⟨by simp only [List.length_append]; exact Nat.add_le_add ha.1 hb.1, ?_⟩
  intro f rest
  have e : f + (ta ++ tb).length = (f + tb.length) + ta.length := by
    simp only [List.length_append]; omega
  rw [e, List.append_assoc, ha.2, hb.2]
  cases lex f rest <;> simp

theorem LexesAny.thenVal {a b : JSString} {ta tb : List Token} (ha : LexesAny a ta)
    (hb : LexesTo b tb) : LexesTo (a ++ b) (ta ++ tb) := by
  refine ⟨by simp only [List.length_append]; exact Nat.add_le_add ha.1 hb.1, ?_⟩
  intro f rest hr
  have e : f + (ta ++ tb).length = (f + tb.length) + ta.length := by
    simp only [List.length_append]; omega
  rw [e, List.append_assoc, ha.2, hb.2 f rest hr]
  cases lex f rest <;> simp

theorem LexesTo.thenAny {a b : JSString} {ta tb : List Token} (ha : LexesTo a ta)
    (hb : LexesAny b tb) (hstart : ∀ rest, Boundary (b ++ rest)) :
    LexesAny (a ++ b) (ta ++ tb) := by
  refine ⟨by simp only [List.length_append]; exact Nat.add_le_add ha.1 hb.1, ?_⟩
  intro f rest
  have e : f + (ta ++ tb).length = (f + tb.length) + ta.length := by
    simp only [List.length_append]; omega
  rw [e, List.append_assoc, ha.2 _ _ (hstart rest), hb.2]
  cases lex f rest <;> simp

theorem boundary_cons {c : Nat} (h : c = 44 ∨ c = 93 ∨ c = 125) (rest : JSString) :
    Boundary (c :: rest) := by
  intro d hd
  simp at hd
  subst hd
  exact h

theorem lex_punct (c : Nat) (tok : Token)
    (h : (c = 91 ∧ tok = .beginArray) ∨ (c = 93 ∧ tok = .endArray) ∨
      (c = 123 ∧ tok = .beginObject) ∨ (c = 125 ∧ tok = .endObject) ∨
      (c = 44 ∧ tok = .valueSeparator) ∨ (c = 58 ∧ tok = .nameSeparator)) :
    LexesAny [c] [tok] := by
  refine ⟨le_refl _, ?_⟩
  intro f rest
  rcases h with ⟨rfl, rfl⟩ | ⟨rfl, rfl⟩ | ⟨rfl, rfl⟩ | ⟨rfl, rfl⟩ | ⟨rfl, rfl⟩ | ⟨rfl, rfl⟩ <;>
    simp [lex]

theorem lex_string (s : JSString) : LexesAny (quoteJSONString s) [.string s] := by
  refine ⟨by simp [quoteJSONString], ?_⟩
  intro f rest
  simp only [quoteJSONString, List.length_singleton, List.singleton_append, List.cons_append,
    List.append_assoc]
  rw [lex]
  simp [lexString_quoteUnits]

theorem stripLiteral_append (lit rest : JSString) : stripLiteral lit (lit ++ rest) = some rest := by
  induction lit with
  | nil => cases rest <;> rfl
  | cons l ls ih => simp [stripLiteral, ih]

theorem lex_true : LexesAny (js "true") [.litTrue] := by
  refine ⟨by decide, ?_⟩
  intro f rest
  have h := stripLiteral_append (js "true") rest
  have e : js "true" = [116, 114, 117, 101] := by decide
  rw [e] at h ⊢
  simp only [List.length_singleton, List.cons_append, List.nil_append] at h ⊢
  rw [lex]
  simp [e, h]

theorem lex_false : LexesAny (js "false") [.litFalse] := by
  refine ⟨by decide, ?_⟩
  intro f rest
  have h := stripLiteral_append (js "false") rest
  have e : js "false" = [102, 97, 108, 115, 101] := by decide
  have e' : js "true" = [116, 114, 117, 101] := by decide
  rw [e] at h ⊢
  simp only [List.length_singleton, List.cons_append, List.nil_append] at h ⊢
  rw [lex]
  simp [e, e', h, stripLiteral]

theorem lex_null : LexesAny (js "null") [.litNull] := by
  refine ⟨by decide, ?_⟩
  intro f rest
  have h := stripLiteral_append (js "null") rest
  have e : js "null" = [110, 117, 108, 108] := by decide
  have e' : js "true" = [116, 114, 117, 101] := by decide
  have e'' : js "false" = [102, 97, 108, 115, 101] := by decide
  rw [e] at h ⊢
  simp only [List.length_singleton, List.cons_append, List.nil_append] at h ⊢
  rw [lex]
  simp [e, e', e'', h, stripLiteral]

theorem lex_bool (b : Bool) :
    LexesAny (stringifyBool b) [if b then .litTrue else .litFalse] := by
  cases b
  · exact lex_false
  · exact lex_true

theorem lex_number (i : Int) :
    LexesTo (numberToString i)
      [.number (((if i < 0 then -1 else 1) *
        (shortestDecimal i.natAbs (natToString i.natAbs).length : Int) : Int) : ℚ)] := by
  have hhead : ∃ c cs, numberToString i = c :: cs ∧ (c = 45 ∨ (48 ≤ c ∧ c ≤ 57)) := by
    unfold numberToString
    simp only
    split
    · exact ⟨45, _, rfl, Or.inl rfl⟩
    · obtain ⟨c, cs, hcs, hc⟩ :=
        decimalToString_head (shortestDecimal i.natAbs (natToString i.natAbs).length)
      exact ⟨c, cs, hcs, Or.inr hc⟩
  obtain ⟨c, cs, hcs, hc⟩ := hhead
  refine ⟨?_, ?_⟩
  · rw [hcs]
    simp
  · intro f rest hr
    have hnum := lexNumber_numberToString i rest hr
    rw [hcs] at hnum ⊢
    simp only [List.length_singleton, List.cons_append] at hnum ⊢
    rw [lex]
    have n1 : ¬ (c = 32 ∨ c = 9 ∨ c = 10 ∨ c = 13) := by omega
    have n2 : c ≠ 91 ∧ c ≠ 93 ∧ c ≠ 123 ∧ c ≠ 125 ∧ c ≠ 44 ∧ c ≠ 58 ∧ c ≠ 34 := by omega
    simp only [n1, n2.1, n2.2.1, n2.2.2.1, n2.2.2.2.1, n2.2.2.2.2.1, n2.2.2.2.2.2.1,
      n2.2.2.2.2.2.2, if_false, hc, if_true, hnum]
    cases lex f rest <;> simp

theorem lex_items (closer : Nat) (closerTok : Token) (hc : LexesAny [closer] [closerTok])
    (hb : closer = 93 ∨ closer = 125) (items : List (JSString × List Token))
    (h : ∀ i ∈ items, LexesTo i.1 i.2) :
    LexesAny (List.intercalate [44] (items.map Prod.fst) ++ [closer])
      (List.intercalate [Token.valueSeparator] (items.map Prod.snd) ++ [closerTok]) := by
  induction items with
  | nil => simpa [intercalate_nil'] using hc
  | cons x xs ih =>
    have hx := h x (by simp)
    have hxs := ih (fun i hi => h i (by simp [hi]))
    cases xs with
    | nil =>
      simp only [List.map_cons, List.map_nil, intercalate_one]
      exact hx.thenAny hc (fun rest => boundary_cons (by omega) rest)
    | cons y ys =>
      simp only [List.map_cons, intercalate_cons_cons, List.append_assoc] at hxs ⊢
      refine hx.thenAny ((lex_punct 44 .valueSeparator (by simp)).append hxs) ?_
      intro rest
      exact boundary_cons (by omega) _

theorem lex_array (items : List (JSString × List Token)) (h : ∀ i ∈ items, LexesTo i.1 i.2) :
    LexesAny (stringifyArray (items.map Prod.fst))
      (Token.beginArray ::
        (List.intercalate [Token.valueSeparator] (items.map Prod.snd) ++ [Token.endArray])) := by
  have h1 := lex_items 93 .endArray (lex_punct 93 .endArray (by simp)) (Or.inl rfl) items h
  have h2 := (lex_punct 91 .beginArray (by simp)).append h1
  simpa [stringifyArray] using h2

theorem lex_member (key : String) (value : JSString) (toks : List Token)
    (h : LexesTo value toks) :
    LexesTo (stringifyMember (key, value)) (.string (js key) :: .nameSeparator :: toks) := by
  have h1 := (lex_string (js key)).append (lex_punct 58 .nameSeparator (by simp))
  have h2 := h1.thenVal h
  simpa [stringifyMember] using h2

theorem lex_object (members : List (String × JSString × List Token))
    (h : ∀ m ∈ members, LexesTo m.2.1 m.2.2) :
    LexesAny (stringifyObject (members.map (fun m => (m.1, m.2.1))))
      (Token.beginObject ::
        (List.intercalate [Token.valueSeparator]
          (members.map (fun m => .string (js m.1) :: .nameSeparator :: m.2.2)) ++
          [Token.endObject])) := by
  have h1 := lex_items 125 .endObject (lex_punct 125 .endObject (by simp)) (Or.inr rfl)
    (members.map (fun m => (stringifyMember (m.1, m.2.1),
      Token.string (js m.1) :: Token.nameSeparator :: m.2.2)))
    (by
      intro i hi
      obtain ⟨m, hm, rfl⟩ := List.mem_map.mp hi
      exact lex_member m.1 m.2.1 m.2.2 (h m hm))
  have h2 := (lex_punct 123 .beginObject (by simp)).append h1
  simpa [stringifyObject, List.map_map, Function.comp_def] using h2

/-! ## Reading the tokens of the stored text -/

theorem parseValue_endArray (f : Nat) (r : List Token) :
    parseValue f (Token.endArray :: r) = none := by
  cases f <;> simp [parseValue]

theorem parseValue_beginArray (g : Nat) (ts : List Token)
    (h : ∀ r, ts ≠ Token.endArray :: r) :
    parseValue (g + 1) (Token.beginArray :: ts) = parseElements g ts [] := by
  cases ts with
  | nil => simp [parseValue]
  | cons t r => cases t <;> first | exact absurd rfl (h r) | simp [parseValue]

theorem parseValue_endObject (f : Nat) (r : List Token) :
    parseValue f (Token.endObject :: r) = none := by
  cases f <;> simp [parseValue]

theorem parseValue_beginObject (g : Nat) (ts : List Token)
    (h : ∀ r, ts ≠ Token.endObject :: r) :
    parseValue (g + 1) (Token.beginObject :: ts) = parseMembers g ts [] := by
  cases ts with
  | nil => simp [parseValue]
  | cons t r => cases t <;> first | exact absurd rfl (h r) | simp [parseValue]

theorem parses_scalar (tok : Token) (v : JSValue)
    (h : (tok = .litNull ∧ v = .null) ∨ (tok = .litTrue ∧ v = .bool true) ∨
      (tok = .litFalse ∧ v = .bool false) ∨
      (∃ q, tok = .number q ∧ v = numberOfLiteral q) ∨
      (∃ s, tok = .string s ∧ v = .str s)) :
    ParsesTo [tok] v := by
  intro f rest hf
  obtain ⟨g, rfl⟩ : ∃ g, f = g + 1 := ⟨f - 1, by simp at hf; omega⟩
  rcases h with ⟨rfl, rfl⟩ | ⟨rfl, rfl⟩ | ⟨rfl, rfl⟩ | ⟨q, rfl, rfl⟩ | ⟨s, rfl, rfl⟩ <;>
    simp [parseValue]

theorem parses_elements (x : List Token × JSValue) (xs : List (List Token × JSValue))
    (h : ∀ i ∈ x :: xs, ParsesTo i.1 i.2) :
    ∀ (acc : List JSValue) (f : Nat) (rest : List Token),
      2 * (List.intercalate [Token.valueSeparator] ((x :: xs).map Prod.fst) ++
        Token.endArray :: rest).length + 1 ≤ f →
      parseElements f (List.intercalate [Token.valueSeparator] ((x :: xs).map Prod.fst) ++
        Token.endArray :: rest) acc = some (.arr (acc ++ (x :: xs).map Prod.snd), rest) := by
  induction xs generalizing x with
  | nil =>
    intro acc f rest hf
    simp only [List.map_cons, List.map_nil, intercalate_one] at hf ⊢
    obtain ⟨g, rfl⟩ : ∃ g, f = g + 1 := ⟨f - 1, by omega⟩
    have hx := h x (by simp) g (Token.endArray :: rest) (by omega)
    rw [parseElements, hx]
  | cons y ys ih =>
    intro acc f rest hf
    simp only [List.map_cons, intercalate_cons_cons, List.append_assoc, List.singleton_append,
      List.cons_append, List.nil_append, List.length_append, List.length_cons] at hf ⊢
    obtain ⟨g, rfl⟩ : ∃ g, f = g + 1 := ⟨f - 1, by omega⟩
    have hx := h x (by simp) g
      (Token.valueSeparator ::
        (List.intercalate [Token.valueSeparator] (y.1 :: ys.map Prod.fst) ++
          Token.endArray :: rest))
      (by simp only [List.length_append, List.length_cons]; omega)
    rw [parseElements, hx]
    have := ih y (fun i hi => h i (by simp at hi ⊢; tauto)) (acc ++ [x.2]) g rest
      (by simp only [List.map_cons, List.length_append, List.length_cons]; omega)
    simp only [List.map_cons] at this
    simp only [this]
    simp

theorem parses_array (items : List (List Token × JSValue)) (h : ∀ i ∈ items, ParsesTo i.1 i.2) :
    ParsesTo
      (Token.beginArray ::
        (List.intercalate [Token.valueSeparator] (items.map Prod.fst) ++ [Token.endArray]))
      (.arr (items.map Prod.snd)) := by
  intro f rest hf
  obtain ⟨g, rfl⟩ : ∃ g, f = g + 1 := ⟨f - 1, by simp at hf; omega⟩
  cases items with
  | nil => simp [intercalate_nil', parseValue]
  | cons x xs =>
    have e : (Token.beginArray ::
        (List.intercalate [Token.valueSeparator] ((x :: xs).map Prod.fst) ++
          [Token.endArray])) ++ rest =
        Token.beginArray ::
          (List.intercalate [Token.valueSeparator] ((x :: xs).map Prod.fst) ++
            Token.endArray :: rest) := by simp
    rw [e] at hf ⊢
    have hlen : 2 * (List.intercalate [Token.valueSeparator] ((x :: xs).map Prod.fst) ++
        Token.endArray :: rest).length + 1 ≤ g := by
      simp only [List.length_cons] at hf
      omega
    have hres := parses_elements x xs h [] g rest hlen
    rw [parseValue_beginArray, hres]
    · simp
    · intro r hr
      rw [hr] at hres
      obtain ⟨g', rfl⟩ : ∃ g', g = g' + 1 := ⟨g - 1, by omega⟩
      rw [parseElements, parseValue_endArray] at hres
      simp at hres

theorem parses_members (x : JSString × List Token × JSValue)
    (xs : List (JSString × List Token × JSValue))
    (h : ∀ m ∈ x :: xs, ParsesTo m.2.1 m.2.2) :
    ∀ (acc : List (JSString × JSValue)) (f : Nat) (rest : List Token),
      2 * (List.intercalate [Token.valueSeparator]
          ((x :: xs).map (fun m => Token.string m.1 :: Token.nameSeparator :: m.2.1)) ++
        Token.endObject :: rest).length + 1 ≤ f →
      parseMembers f (List.intercalate [Token.valueSeparator]
          ((x :: xs).map (fun m => Token.string m.1 :: Token.nameSeparator :: m.2.1)) ++
        Token.endObject :: rest) acc =
        some (.obj ((x :: xs).foldl (fun acc m => setMember m.1 m.2.2 acc) acc), rest) := by
  induction xs generalizing x with
  | nil =>
    intro acc f rest hf
    simp only [List.map_cons, List.map_nil, intercalate_one, List.cons_append,
      List.length_cons, List.length_append] at hf ⊢
    obtain ⟨g, rfl⟩ : ∃ g, f = g + 1 := ⟨f - 1, by omega⟩
    have hx := h x (by simp) g (Token.endObject :: rest)
      (by simp only [List.length_append, List.length_cons]; omega)
    rw [parseMembers]
    simp only [hx, List.foldl_cons, List.foldl_nil]
  | cons y ys ih =>
    intro acc f rest hf
    simp only [List.map_cons, intercalate_cons_cons, List.append_assoc, List.singleton_append,
      List.cons_append, List.nil_append, List.length_append, List.length_cons] at hf ⊢
    obtain ⟨g, rfl⟩ : ∃ g, f = g + 1 := ⟨f - 1, by omega⟩
    have hx := h x (by simp) g
      (Token.valueSeparator ::
        (List.intercalate [Token.valueSeparator]
          ((Token.string y.1 :: Token.nameSeparator :: y.2.1) ::
            ys.map (fun m => Token.string m.1 :: Token.nameSeparator :: m.2.1)) ++
          Token.endObject :: rest))
      (by simp only [List.length_append, List.length_cons]; omega)
    rw [parseMembers]
    simp only [hx]
    have := ih y (fun i hi => h i (by simp at hi ⊢; tauto)) (setMember x.1 x.2.2 acc) g rest
      (by simp only [List.map_cons, List.length_append, List.length_cons]; omega)
    simp only [List.map_cons] at this
    simp only [this]
    simp

theorem setMember_new (key : JSString) (value : JSValue) (acc : List (JSString × JSValue))
    (h : key ∉ acc.map Prod.fst) : setMember key value acc = acc ++ [(key, value)] := by
  induction acc with
  | nil => rfl
  | cons a as ih =>
    obtain ⟨k, v⟩ := a
    simp only [List.map_cons, List.mem_cons, not_or] at h
    have hk : ¬ k = key := fun e => h.1 e.symm
    simp [setMember, hk, ih h.2]

theorem foldl_setMember (ms : List (JSString × List Token × JSValue))
    (acc : List (JSString × JSValue))
    (h : (acc.map Prod.fst ++ ms.map Prod.fst).Nodup) :
    ms.foldl (fun acc m => setMember m.1 m.2.2 acc) acc =
      acc ++ ms.map (fun m => (m.1, m.2.2)) := by
  induction ms generalizing acc with
  | nil => simp
  | cons m ms ih =>
    have hm : m.1 ∉ acc.map Prod.fst := by
      intro hmem
      have := List.nodup_append.mp h
      exact this.2.2 hmem (by simp)
    simp only [List.foldl_cons, setMember_new _ _ _ hm]
    rw [ih]
    · simp
    · simpa [List.append_assoc] using h

theorem parses_object (members : List (JSString × List Token × JSValue))
    (h : ∀ m ∈ members, ParsesTo m.2.1 m.2.2) (hk : (members.map Prod.fst).Nodup) :
    ParsesTo
      (Token.beginObject ::
        (List.intercalate [Token.valueSeparator]
          (members.map (fun m => Token.string m.1 :: Token.nameSeparator :: m.2.1)) ++
          [Token.endObject]))
      (.obj (members.map (fun m => (m.1, m.2.2)))) := by
  intro f rest hf
  obtain ⟨g, rfl⟩ : ∃ g, f = g + 1 := ⟨f - 1, by simp at hf; omega⟩
  cases members with
  | nil => simp [intercalate_nil', parseValue]
  | cons x xs =>
    have e : (Token.beginObject ::
        (List.intercalate [Token.valueSeparator]
          ((x :: xs).map (fun m => Token.string m.1 :: Token.nameSeparator :: m.2.1)) ++
          [Token.endObject])) ++ rest =
        Token.beginObject ::
          (List.intercalate [Token.valueSeparator]
            ((x :: xs).map (fun m => Token.string m.1 :: Token.nameSeparator :: m.2.1)) ++
            Token.endObject :: rest) := by simp
    rw [e] at hf ⊢
    have hlen : 2 * (List.intercalate [Token.valueSeparator]
          ((x :: xs).map (fun m => Token.string m.1 :: Token.nameSeparator :: m.2.1)) ++
        Token.endObject :: rest).length + 1 ≤ g := by
      simp only [List.length_cons] at hf
      omega
    have hres := parses_members x xs h [] g rest hlen
    rw [parseValue_beginObject, hres, foldl_setMember _ _ (by simpa using hk)]
    · simp
    · intro r hr
      cases xs with
      | nil => simp [intercalate_one] at hr
      | cons y ys => simp [intercalate_cons_cons] at hr

/-! ## Reading back what `JSON.stringify` wrote -/

theorem nearestDouble_neg (a b : Nat) :
    nearestDouble (-1) a b = (nearestDouble 1 a b).map (fun q => -q) := by
  unfold nearestDouble
  by_cases ha : a = 0
  · simp [ha]
  · simp only [ha, if_false]
    split
    · rfl
    · simp only [Option.map_some', Option.some.injEq, Rat.mkRat_eq_div]
      push_cast
      ring

theorem roundInt_neg (c : Nat) :
    roundInt (-(c : Int)) = (roundInt (c : Int)).map (fun q => -q) := by
  unfold roundInt
  by_cases hc : c = 0
  · subst hc
    simp [nearestDouble]
  · have h1 : (-(c : Int) < 0) := by omega
    have h2 : ¬ ((c : Int) < 0) := by omega
    simp only [h1, h2, if_true, if_false, Int.natAbs_neg, Int.natAbs_ofNat]
    exact nearestDouble_neg c 1

theorem shortestDecimal_round (x : Nat) (n : Nat) :
    roundInt (shortestDecimal x n : Int) = roundInt (x : Int) := by
  induction n with
  | zero => rfl
  | succ t ih =>
    unfold shortestDecimal
    simp only
    split_ifs with h1 h2 h3 h4 h5 h6
    · exact eq_of_beq h1.1
    · exact eq_of_beq h1.2
    · exact eq_of_beq h1.1
    · exact eq_of_beq h1.2
    · exact eq_of_beq h5
    · exact eq_of_beq h6
    · exact ih

theorem roundInt_shortest (i : Int) (h : isDouble i = true) :
    roundInt ((if i < 0 then -1 else 1) *
      (shortestDecimal i.natAbs (natToString i.natAbs).length : Int)) = some (i : ℚ) := by
  have h' : roundInt i = some (i : ℚ) := by simpa [isDouble] using h
  by_cases hi : i < 0
  · simp only [hi, if_true, neg_mul, one_mul]
    rw [roundInt_neg, shortestDecimal_round, ← roundInt_neg]
    have : -((i.natAbs : Nat) : Int) = i := by omega
    rw [this, h']
  · simp only [hi, if_false, one_mul]
    rw [shortestDecimal_round]
    have : ((i.natAbs : Nat) : Int) = i := by omega
    rw [this, h']

theorem numberOfLiteral_round (j i : Int) (h : roundInt j = some (i : ℚ)) :
    numberOfLiteral (j : ℚ) = .num i := by
  unfold roundInt at h
  unfold numberOfLiteral
  simp only [Rat.num_intCast, Rat.den_intCast, h]

theorem reads_int (i : Int) (h : isDouble i = true) : Reads (numberToString i) (.num i) :=
  ⟨_, lex_number i,
    parses_scalar _ _
      (Or.inr (Or.inr (Or.inr (Or.inl
        ⟨_, rfl, (numberOfLiteral_round _ i (roundInt_shortest i h)).symm⟩))))⟩

theorem reads_string (s : JSString) : Reads (quoteJSONString s) (.str s) :=
  ⟨[.string s], (lex_string s).toVal,
    parses_scalar _ _ (Or.inr (Or.inr (Or.inr (Or.inr ⟨_, rfl, rfl⟩))))⟩

theorem reads_bool (b : Bool) : Reads (stringifyBool b) (.bool b) := by
  cases b
  · exact ⟨[.litFalse], lex_false.toVal, parses_scalar _ _ (Or.inr (Or.inr (Or.inl ⟨rfl, rfl⟩)))⟩
  · exact ⟨[.litTrue], lex_true.toVal, parses_scalar _ _ (Or.inr (Or.inl ⟨rfl, rfl⟩))⟩

theorem reads_number (n : JSNumber) (h : n.double = true) :
    Reads (stringifyNumber n) (numberJSON n) := by
  cases n with
  | nan => exact ⟨[.litNull], lex_null.toVal, parses_scalar _ _ (Or.inl ⟨rfl, rfl⟩)⟩
  | inf b => exact ⟨[.litNull], lex_null.toVal, parses_scalar _ _ (Or.inl ⟨rfl, rfl⟩)⟩
  | int i => exact reads_int i h

theorem exists_tokens {α : Type} (text : α → JSString) (val : α → JSValue) (l : List α)
    (h : ∀ a ∈ l, Reads (text a) (val a)) :
    ∃ tk : List (α × List Token), tk.map Prod.fst = l ∧
      ∀ p ∈ tk, LexesTo (text p.1) p.2 ∧ ParsesTo p.2 (val p.1) := by
  induction l with
  | nil => exact ⟨[], rfl, by simp⟩
  | cons a as ih =>
    obtain ⟨tk, h1, h2⟩ := ih (fun b hb => h b (by simp [hb]))
    obtain ⟨toks, h3, h4⟩ := h a (by simp)
    refine ⟨(a, toks) :: tk, by simp [h1], ?_⟩
    intro p hp
    rcases List.mem_cons.mp hp with rfl | hp
    · exact ⟨h3, h4⟩
    · exact h2 p hp

theorem reads_array (items : List (JSString × JSValue)) (h : ∀ i ∈ items, Reads i.1 i.2) :
    Reads (stringifyArray (items.map Prod.fst)) (.arr (items.map Prod.snd)) := by
  obtain ⟨tk, h1, h2⟩ := exists_tokens Prod.fst Prod.snd items h
  subst h1
  have hl := lex_array (tk.map (fun p => (p.1.1, p.2)))
    (by
      intro i hi
      obtain ⟨p, hp, rfl⟩ := List.mem_map.mp hi
      exact (h2 p hp).1)
  have hp := parses_array (tk.map (fun p => (p.2, p.1.2)))
    (by
      intro i hi
      obtain ⟨p, hp, rfl⟩ := List.mem_map.mp hi
      exact (h2 p hp).2)
  simp only [List.map_map, Function.comp_def] at hl hp ⊢
  exact ⟨_, hl.toVal, hp⟩

theorem reads_object (members : List (String × JSString × JSValue))
    (h : ∀ m ∈ members, Reads m.2.1 m.2.2) (hk : (members.map (fun m => js m.1)).Nodup) :
    Reads (stringifyObject (members.map (fun m => (m.1, m.2.1))))
      (.obj (members.map (fun m => (js m.1, m.2.2)))) := by
  obtain ⟨tk, h1, h2⟩ := exists_tokens (fun m : String × JSString × JSValue => m.2.1)
    (fun m => m.2.2) members h
  subst h1
  have hl := lex_object (tk.map (fun p => (p.1.1, p.1.2.1, p.2)))
    (by
      intro i hi
      obtain ⟨p, hp, rfl⟩ := List.mem_map.mp hi
      exact (h2 p hp).1)
  have hp := parses_object (tk.map (fun p => (js p.1.1, p.2, p.1.2.2)))
    (by
      intro i hi
      obtain ⟨p, hp, rfl⟩ := List.mem_map.mp hi
      exact (h2 p hp).2)
    (by simpa [List.map_map, Function.comp_def] using hk)
  simp only [List.map_map, Function.comp_def] at hl hp ⊢
  exact ⟨_, hl.toVal, hp⟩

theorem reads_parse {text : JSString} {v : JSValue} (h : Reads text v) :
    JSONparse text = some v := by
  obtain ⟨toks, ⟨hlen, hlex⟩, hparse⟩ := h
  have h1 := hlex (text.length + 1 - toks.length) [] (by intro c hc; simp at hc)
  have e : text.length + 1 - toks.length + toks.length = text.length + 1 := by omega
  obtain ⟨g, hg⟩ : ∃ g, text.length + 1 - toks.length = g + 1 :=
    ⟨text.length - toks.length, by omega⟩
  rw [e, hg] at h1
  simp only [List.append_nil, lex, Option.map_some'] at h1
  have h2 := hparse (2 * toks.length + 2) [] (by simp)
  simp only [List.append_nil] at h2
  simp [JSONparse, h1, h2]

theorem reads_reply (r : Reply) (h : r.doubles = true) :
    Reads (stringifyReply r) (replyValue r) := by
  simp only [Reply.doubles, Bool.and_eq_true] at h
  have := reads_object
    [("id", numberToString r.id, .num r.id), ("name", quoteJSONString r.name, .str r.name),
     ("text", quoteJSONString r.text, .str r.text), ("date", quoteJSONString r.date, .str r.date),
     ("likes", numberToString r.likes, .num r.likes), ("liked", stringifyBool r.liked, .bool r.liked)]
    (by
      intro m hm
      simp only [List.mem_cons, List.mem_singleton, List.not_mem_nil, or_false] at hm
      rcases hm with rfl | rfl | rfl | rfl | rfl | rfl
      · exact reads_int _ h.1
      · exact reads_string _
      · exact reads_string _
      · exact reads_string _
      · exact reads_int _ h.2
      · exact reads_bool _)
    (by simp only [List.map_cons, List.map_nil]; decide)
  exact this

theorem reads_comment (c : Comment) (h : c.doubles = true) :
    Reads (stringifyComment c) (commentValue c) := by
  simp only [Comment.doubles, Bool.and_eq_true, List.all_eq_true] at h
  have harr := reads_array (c.replies.map (fun r => (stringifyReply r, replyValue r)))
    (by
      intro i hi
      obtain ⟨r, hr, rfl⟩ := List.mem_map.mp hi
      exact reads_reply r (h.2 r hr))
  simp only [List.map_map, Function.comp_def] at harr
  have := reads_object
    [("id", numberToString c.id, .num c.id), ("name", quoteJSONString c.name, .str c.name),
     ("text", quoteJSONString c.text, .str c.text), ("date", quoteJSONString c.date, .str c.date),
     ("likes", numberToString c.likes, .num c.likes), ("liked", stringifyBool c.liked, .bool c.liked),
     ("replies", stringifyArray (c.replies.map stringifyReply),
       .arr (c.replies.map replyValue))]
    (by
      intro m hm
      simp only [List.mem_cons, List.mem_singleton, List.not_mem_nil, or_false] at hm
      rcases hm with rfl | rfl | rfl | rfl | rfl | rfl | rfl
      · exact reads_int _ h.1.1
      · exact reads_string _
      · exact reads_string _
      · exact reads_string _
      · exact reads_int _ h.1.2
      · exact reads_bool _
      · exact harr)
    (by simp only [List.map_cons, List.map_nil]; decide)
  exact this

theorem reads_feedback (f : Feedback) (h : f.doubles = true) :
    Reads (stringifyFeedback f) (feedbackJSON f) := by
  simp only [Feedback.doubles, Bool.and_eq_true, List.all_eq_true] at h
  have htags := reads_array (f.tags.map (fun t => (quoteJSONString t, JSValue.str t)))
    (by
      intro i hi
      obtain ⟨t, _, rfl⟩ := List.mem_map.mp hi
      exact reads_string t)
  have hcomments := reads_array (f.comments.map (fun c => (stringifyComment c, commentValue c)))
    (by
      intro i hi
      obtain ⟨c, hc, rfl⟩ := List.mem_map.mp hi
      exact reads_comment c (h.2 c hc))
  simp only [List.map_map, Function.comp_def] at htags hcomments
  have := reads_object
    [("id", numberToString f.id, .num f.id), ("name", quoteJSONString f.name, .str f.name),
     ("email", quoteJSONString f.email, .str f.email),
     ("rating", stringifyNumber f.rating, numberJSON f.rating),
     ("feedback", quoteJSONString f.feedback, .str f.feedback),
     ("tags", stringifyArray (f.tags.map quoteJSONString), .arr (f.tags.map JSValue.str)),
     ("date", quoteJSONString f.date, .str f.date),
     ("comments", stringifyArray (f.comments.map stringifyComment),
       .arr (f.comments.map commentValue))]
    (by
      intro m hm
      simp only [List.mem_cons, List.mem_singleton, List.not_mem_nil, or_false] at hm
      rcases hm with rfl | rfl | rfl | rfl | rfl | rfl | rfl | rfl
      · exact reads_int _ h.1.1
      · exact reads_string _
      · exact reads_string _
      · exact reads_number _ h.1.2
      · exact reads_string _
      · exact htags
      · exact reads_string _
      · exact hcomments)
    (by simp only [List.map_cons, List.map_nil]; decide)
  exact this

theorem reads_collection (feedbackData : List Feedback)
    (h : ∀ f ∈ feedbackData, f.doubles = true) :
    Reads (stringify feedbackData) (.arr (feedbackData.map feedbackJSON)) := by
  have := reads_array (feedbackData.map (fun f => (stringifyFeedback f, feedbackJSON f)))
    (by
      intro i hi
      obtain ⟨f, hf, rfl⟩ := List.mem_map.mp hi
      exact reads_feedback f (h f hf))
  simpa [List.map_map, Function.comp_def, stringify] using this

theorem getItem_setItem (key value : JSString) (storage : Storage) :
    getItem key (setItem key value storage) = some value := by
  induction storage with
  | nil => simp [setItem, getItem]
  | cons kv rest ih =>
    obtain ⟨k, v⟩ := kv
    by_cases hk : k = key
    · simp [setItem, getItem, hk]
    · simp [setItem, getItem, hk, ih]

theorem load_after_save (p : Page) (h : ∀ f ∈ p.feedbackData, f.doubles = true) :
    loadFeedbackData (saveFeedbackData p).localStorage =
      .loaded (.arr (p.feedbackData.map feedbackJSON)) := by
  simp [loadFeedbackData, saveFeedbackData, getItem_setItem,
    reads_parse (reads_collection p.feedbackData h), JSValue.truthy]

theorem feedbackJSON_eq (f : Feedback) (h : f.rating.finite = true) :
    feedbackJSON f = feedbackValue f := by
  cases hr : f.rating with
  | nan => simp [hr, JSNumber.finite] at h
  | inf b => simp [hr, JSNumber.finite] at h
  | int i => simp [feedbackJSON, feedbackValue, numberJSON, numberValue, hr]

/-! ## The bounds of the lexer and the parser are never reached -/

theorem lexString_length (n : Nat) : ∀ (s x r : JSString), s.length ≤ n →
    lexString s = some (x, r) → r.length < s.length := by
  induction n with
  | zero =>
    intro s x r hn h
    cases s with
    | nil => simp [lexString] at h
    | cons c cs => simp at hn
  | succ n ih =>
    intro s x r hn h
    have step : ∀ (t : JSString) (u : Nat), t.length ≤ n →
        (lexString t).map (fun y => (u :: y.1, y.2)) = some (x, r) → r.length < t.length := by
      intro t u ht hm
      obtain ⟨y, hy, he⟩ := Option.map_eq_some'.mp hm
      obtain ⟨y1, y2⟩ := y
      simp only [Prod.mk.injEq] at he
      rw [← he.2]
      exact ih t y1 y2 ht hy
    cases s with
    | nil => simp [lexString] at h
    | cons c rest =>
      simp only [List.length_cons] at hn ⊢
      rw [lexString.eq_def] at h
      simp only at h
      by_cases h34 : c = 34
      · simp only [h34, if_true, Option.some.injEq, Prod.mk.injEq] at h
        rw [← h.2]
        omega
      · simp only [h34, if_false] at h
        by_cases h92 : c = 92
        · simp only [h92, if_true] at h
          cases rest with
          | nil => simp at h
          | cons e r1 =>
            simp only [List.length_cons] at hn ⊢
            simp only at h
            by_cases h117 : e = 117
            · simp only [h117, if_true] at h
              rcases r1 with _ | ⟨a, _ | ⟨b, _ | ⟨c', _ | ⟨d, r2⟩⟩⟩⟩ <;> simp only at h <;>
                try (simp at h)
              cases hu : hexUnit a b c' d with
              | none => simp [hu] at h
              | some u =>
                simp only [hu] at h
                have := step r2 u (by simp only [List.length_cons] at hn; omega) h
                simp only [List.length_cons]
                omega
            · simp only [h117, if_false] at h
              cases hu : simpleEscape e with
              | none => simp [hu] at h
              | some u =>
                simp only [hu] at h
                have := step r1 u (by omega) h
                omega
        · simp only [h92, if_false] at h
          by_cases h32 : c < 32
          · simp [h32] at h
          · simp only [h32, if_false] at h
            have := step rest c (by omega) h
            omega

theorem takeDigits_length (s : JSString) :
    (takeDigits s).1.length + (takeDigits s).2.length = s.length := by
  induction s with
  | nil => rfl
  | cons c cs ih =>
    unfold takeDigits
    split
    · simp only [Prod.map_fst, Prod.map_snd, List.length_cons, id]
      omega
    · simp

theorem lexIntPart_length {s ip r : JSString} (h : lexIntPart s = some (ip, r)) :
    r.length < s.length := by
  unfold lexIntPart at h
  split at h
  · simp only [Option.some.injEq, Prod.mk.injEq] at h
    rw [← h.2]
    simp
  · have hl := takeDigits_length s
    generalize takeDigits s = p at h hl
    obtain ⟨ds, rest⟩ := p
    cases ds with
    | nil => simp at h
    | cons d ds =>
      simp only [Option.some.injEq, Prod.mk.injEq] at h
      rw [← h.2]
      simp only [List.length_cons] at hl
      omega

theorem lexFraction_length {s fp r : JSString} (h : lexFraction s = some (fp, r)) :
    r.length ≤ s.length := by
  unfold lexFraction at h
  split at h
  · rename_i rest
    have hl := takeDigits_length rest
    split at h
    · simp at h
    · rename_i ds rest' hne heq
      simp only [Option.some.injEq, Prod.mk.injEq] at h
      rw [heq] at hl
      simp only at hl
      obtain ⟨rfl, rfl⟩ := h
      simp
      omega
  · simp only [Option.some.injEq, Prod.mk.injEq] at h
    rw [← h.2]

theorem lexExponent_length {s r : JSString} {e : Int} (h : lexExponent s = some (e, r)) :
    r.length ≤ s.length := by
  have digits : ∀ (sign : Int) (t : JSString),
      (match takeDigits t with
        | ([], _) => none
        | (ds, rest) => some (sign * (digitsValue ds : Int), rest)) = some (e, r) →
      r.length ≤ t.length := by
    intro sign t ht
    have hl := takeDigits_length t
    split at ht
    · simp at ht
    · rename_i ds rest hne heq
      simp only [Option.some.injEq, Prod.mk.injEq] at ht
      rw [heq] at hl
      simp only at hl
      rw [← ht.2]
      omega
  have signed : ∀ (t : JSString),
      (match t with
        | 43 :: r' =>
          (match takeDigits r' with
            | ([], _) => none
            | (ds, rest) => some ((1 : Int) * (digitsValue ds : Int), rest))
        | 45 :: r' =>
          (match takeDigits r' with
            | ([], _) => none
            | (ds, rest) => some ((-1 : Int) * (digitsValue ds : Int), rest))
        | _ =>
          (match takeDigits t with
            | ([], _) => none
            | (ds, rest) => some ((1 : Int) * (digitsValue ds : Int), rest))) = some (e, r) →
      r.length ≤ t.length := by
    intro t ht
    split at ht
    · have := digits 1 _ ht
      simp only [List.length_cons]
      omega
    · have := digits (-1) _ ht
      simp only [List.length_cons]
      omega
    · exact digits 1 _ ht
  unfold lexExponent at h
  simp only at h
  split at h
  · have := signed _ h
    simp only [List.length_cons]
    omega
  · have := signed _ h
    simp only [List.length_cons]
    omega
  · simp only [Option.some.injEq, Prod.mk.injEq] at h
    rw [← h.2]

theorem lexUnsigned_length {sign : Int} {t r : JSString} {q : ℚ}
    (ht : lexUnsigned sign t = some (q, r)) : r.length < t.length := by
  unfold lexUnsigned at ht
  cases h1 : lexIntPart t with
  | none => simp [h1] at ht
  | some a =>
    obtain ⟨ip, s1⟩ := a
    simp only [h1] at ht
    cases h2 : lexFraction s1 with
    | none => simp [h2] at ht
    | some b =>
      obtain ⟨fp, s2⟩ := b
      simp only [h2] at ht
      cases h3 : lexExponent s2 with
      | none => simp [h3] at ht
      | some c =>
        obtain ⟨e, s3⟩ := c
        simp only [h3, Option.some.injEq, Prod.mk.injEq] at ht
        have l1 := lexIntPart_length h1
        have l2 := lexFraction_length h2
        have l3 := lexExponent_length h3
        rw [← ht.2]
        omega

theorem lexNumber_length {s r : JSString} {q : ℚ} (h : lexNumber s = some (q, r)) :
    r.length < s.length := by
  unfold lexNumber at h
  split at h
  · have := lexUnsigned_length h
    simp only [List.length_cons]
    omega
  · exact lexUnsigned_length h

theorem stripLiteral_length : ∀ (lit s r : JSString), stripLiteral lit s = some r →
    r.length + lit.length = s.length := by
  intro lit
  induction lit with
  | nil =>
    intro s r h
    cases s <;> simp [stripLiteral] at h <;> simp [← h]
  | cons l ls ih =>
    intro s r h
    cases s with
    | nil => simp [stripLiteral] at h
    | cons c cs =>
      simp only [stripLiteral] at h
      split at h
      · have := ih cs r h
        simp only [List.length_cons]
        omega
      · simp at h

theorem lex_fuel (f : Nat) : ∀ (g : Nat) (s : JSString), s.length < f → s.length < g →
    lex f s = lex g s := by
  induction f with
  | zero => intro g s hf; omega
  | succ f ih =>
    intro g s hf hg
    obtain ⟨g, rfl⟩ : ∃ g', g = g' + 1 := ⟨g - 1, by omega⟩
    cases s with
    | nil => simp [lex]
    | cons c rest =>
      simp only [List.length_cons] at hf hg
      have hrest := ih g rest (by omega) (by omega)
      rw [lex, lex]
      simp only [hrest]
      have hstr : (match lexString rest with
            | some (s, r) => (lex f r).map (fun ts => Token.string s :: ts)
            | none => none) =
          (match lexString rest with
            | some (s, r) => (lex g r).map (fun ts => Token.string s :: ts)
            | none => none) := by
        cases h : lexString rest with
        | none => rfl
        | some y =>
          obtain ⟨x, r⟩ := y
          have := lexString_length rest.length rest x r (le_refl _) h
          simp only [ih g r (by omega) (by omega)]
      have hnum : (match lexNumber (c :: rest) with
            | some (q, r) => (lex f r).map (fun ts => Token.number q :: ts)
            | none => none) =
          (match lexNumber (c :: rest) with
            | some (q, r) => (lex g r).map (fun ts => Token.number q :: ts)
            | none => none) := by
        cases h : lexNumber (c :: rest) with
        | none => rfl
        | some y =>
          obtain ⟨q, r⟩ := y
          have := lexNumber_length h
          simp only [List.length_cons] at this
          simp only [ih g r (by omega) (by omega)]
      have hlit : ∀ (lit : JSString) (tok : Token) (other : Option (List Token)),
          lit ≠ [] →
          (match stripLiteral lit (c :: rest) with
            | some r => (lex f r).map (fun ts => tok :: ts)
            | none => other) =
          (match stripLiteral lit (c :: rest) with
            | some r => (lex g r).map (fun ts => tok :: ts)
            | none => other) := by
        intro lit tok other hlit
        cases h : stripLiteral lit (c :: rest) with
        | none => rfl
        | some r =>
          have := stripLiteral_length lit (c :: rest) r h
          have hl : 0 < lit.length := List.length_pos.mpr hlit
          simp only [List.length_cons] at this
          simp only [ih g r (by omega) (by omega)]
      rw [hstr, hnum, hlit (js "null") _ _ (by decide)]
      have h2 := hlit (js "false") Token.litFalse
        (match stripLiteral (js "null") (c :: rest) with
          | some r => (lex g r).map (fun ts => Token.litNull :: ts)
          | none => none) (by decide)
      rw [h2]
      rw [hlit (js "true") _ _ (by decide)]

mutual

theorem parseValue_length (f : Nat) : ∀ (ts r : List Token) (v : JSValue),
    parseValue f ts = some (v, r) → r.length < ts.length := by
  intro ts r v h
  match f, ts with
  | 0, _ => simp [parseValue] at h
  | _ + 1, [] => simp [parseValue] at h
  | f + 1, tok :: rest =>
    cases tok with
    | litNull | litTrue | litFalse | number q | string s =>
      simp [parseValue] at h
      rw [← h.2]
      simp
    | endArray | endObject | valueSeparator | nameSeparator => simp [parseValue] at h
    | beginArray =>
      unfold parseValue at h
      simp only at h
      split at h
      · simp only [Option.some.injEq, Prod.mk.injEq] at h
        rw [← h.2]
        simp only [List.length_cons]
        omega
      · have := parseElements_length f _ _ _ _ h
        simp only [List.length_cons]
        omega
    | beginObject =>
      unfold parseValue at h
      simp only at h
      split at h
      · simp only [Option.some.injEq, Prod.mk.injEq] at h
        rw [← h.2]
        simp only [List.length_cons]
        omega
      · have := parseMembers_length f _ _ _ _ h
        simp only [List.length_cons]
        omega

theorem parseElements_length (f : Nat) : ∀ (ts : List Token) (acc : List JSValue)
    (r : List Token) (v : JSValue),
    parseElements f ts acc = some (v, r) → r.length < ts.length := by
  intro ts acc r v h
  match f with
  | 0 => simp [parseElements] at h
  | f + 1 =>
    rw [parseElements] at h
    split at h
    · rename_i v' rest heq
      have h1 := parseValue_length f _ _ _ heq
      have h2 := parseElements_length f _ _ _ _ h
      simp only [List.length_cons] at h1
      omega
    · rename_i v' rest heq
      have h1 := parseValue_length f _ _ _ heq
      simp only [Option.some.injEq, Prod.mk.injEq] at h
      rw [← h.2]
      simp only [List.length_cons] at h1
      omega
    · simp at h

theorem parseMembers_length (f : Nat) : ∀ (ts : List Token) (acc : List (JSString × JSValue))
    (r : List Token) (v : JSValue),
    parseMembers f ts acc = some (v, r) → r.length < ts.length := by
  intro ts acc r v h
  match f with
  | 0 => simp [parseMembers] at h
  | f + 1 =>
    unfold parseMembers at h
    split at h
    · rename_i key ts'
      split at h
      · rename_i v' rest heq
        have h1 := parseValue_length f _ _ _ heq
        have h2 := parseMembers_length f _ _ _ _ h
        simp only [List.length_cons] at h1 ⊢
        omega
      · rename_i v' rest heq
        have h1 := parseValue_length f _ _ _ heq
        simp only [Option.some.injEq, Prod.mk.injEq] at h
        rw [← h.2]
        simp only [List.length_cons] at h1 ⊢
        omega
      · simp at h
    · simp at h

end

mutual

theorem parseValue_fuel (f : Nat) : ∀ (g : Nat) (ts : List Token),
    2 * ts.length ≤ f → 2 * ts.length ≤ g → parseValue f ts = parseValue g ts := by
  intro g ts hf hg
  match f, ts with
  | 0, [] => cases g <;> simp [parseValue]
  | _ + 1, [] => cases g <;> simp [parseValue]
  | 0, _ :: _ => simp at hf
  | f + 1, tok :: rest =>
    obtain ⟨g, rfl⟩ : ∃ g', g = g' + 1 := ⟨g - 1, by simp at hg; omega⟩
    simp only [List.length_cons] at hf hg
    cases tok with
    | litNull | litTrue | litFalse | number q | string s => simp [parseValue]
    | endArray | endObject | valueSeparator | nameSeparator => simp [parseValue]
    | beginArray =>
      by_cases h : ∃ r, rest = Token.endArray :: r
      · obtain ⟨r, rfl⟩ := h
        simp [parseValue]
      · have h' : ∀ r, rest ≠ Token.endArray :: r := fun r hr => h ⟨r, hr⟩
        rw [parseValue_beginArray f rest h', parseValue_beginArray g rest h']
        exact parseElements_fuel f g rest [] (by omega) (by omega)
    | beginObject =>
      by_cases h : ∃ r, rest = Token.endObject :: r
      · obtain ⟨r, rfl⟩ := h
        simp [parseValue]
      · have h' : ∀ r, rest ≠ Token.endObject :: r := fun r hr => h ⟨r, hr⟩
        rw [parseValue_beginObject f rest h', parseValue_beginObject g rest h']
        exact parseMembers_fuel f g rest [] (by omega) (by omega)

theorem parseElements_fuel (f : Nat) : ∀ (g : Nat) (ts : List Token) (acc : List JSValue),
    2 * ts.length + 1 ≤ f → 2 * ts.length + 1 ≤ g →
    parseElements f ts acc = parseElements g ts acc := by
  intro g ts acc hf hg
  match f with
  | 0 => omega
  | f + 1 =>
    obtain ⟨g, rfl⟩ : ∃ g', g = g' + 1 := ⟨g - 1, by omega⟩
    rw [parseElements, parseElements, parseValue_fuel f g ts (by omega) (by omega)]
    cases hv : parseValue g ts with
    | none => rfl
    | some y =>
      obtain ⟨v, r⟩ := y
      have hlen := parseValue_length g ts r v hv
      cases r with
      | nil => rfl
      | cons t r' =>
        simp only [List.length_cons] at hlen
        cases t <;> try rfl
        exact parseElements_fuel f g r' (acc ++ [v]) (by omega) (by omega)

theorem parseMembers_fuel (f : Nat) : ∀ (g : Nat) (ts : List Token)
    (acc : List (JSString × JSValue)),
    2 * ts.length + 1 ≤ f → 2 * ts.length + 1 ≤ g →
    parseMembers f ts acc = parseMembers g ts acc := by
  intro g ts acc hf hg
  match f with
  | 0 => omega
  | f + 1 =>
    obtain ⟨g, rfl⟩ : ∃ g', g = g' + 1 := ⟨g - 1, by omega⟩
    unfold parseMembers
    split
    · rename_i key ts'
      simp only [List.length_cons] at hf hg
      rw [parseValue_fuel f g ts' (by omega) (by omega)]
      cases hv : parseValue g ts' with
      | none => rfl
      | some y =>
        obtain ⟨v, r⟩ := y
        have hlen := parseValue_length g ts' r v hv
        cases r with
        | nil => rfl
        | cons t r' =>
          simp only [List.length_cons] at hlen
          cases t <;> try rfl
          exact parseMembers_fuel f g r' (setMember key v acc) (by omega) (by omega)
    · rfl

end

/-- The bounds in `JSONparse` are never the reason for a rejection: any
larger bounds give the same result. -/
theorem JSONparse_fuel (text : JSString) (f : Nat) (g : List Token → Nat)
    (hf : text.length < f) (hg : ∀ toks, 2 * toks.length + 2 ≤ g toks) :
    (match lex f text with
      | none => none
      | some toks =>
        match parseValue (g toks) toks with
        | some (v, []) => some v
        | _ => none) = JSONparse text := by
  unfold JSONparse
  rw [lex_fuel f (text.length + 1) text hf (by omega)]
  cases lex (text.length + 1) text with
  | none => rfl
  | some toks =>
    simp only
    rw [parseValue_fuel (g toks) (2 * toks.length + 2) toks (by have := hg toks; omega)
      (by omega)]

/-! ## Saving and loading -/

/-- C8, the amended claim: when every rating of the collection is a finite
number (not `NaN`, `Infinity` or `-Infinity`), the value that the startup
load reads from what `saveFeedbackData` wrote is the value of the collection
in memory: the same records in the same order, each with the same id, name,
email, rating, text, tags, date, and comments with their replies.  The
numbers of the collection are doubles, as all JavaScript numbers are. -/
theorem save_load_roundtrip (p : Page) (hd : ∀ f ∈ p.feedbackData, f.doubles = true)
    (hr : ∀ f ∈ p.feedbackData, f.rating.finite = true) :
    loadFeedbackData (saveFeedbackData p).localStorage =
      .loaded (collectionValue p.feedbackData) := by
  rw [load_after_save p hd, collectionValue]
  congr 2
  exact List.map_congr_left (fun f hf => feedbackJSON_eq f (hr f hf))

/-- C8, worked instance: the sample page, whose record has rating 5. -/
theorem save_load_roundtrip_witness :
    (∀ f ∈ samplePage.feedbackData, f.doubles = true) ∧
    (∀ f ∈ samplePage.feedbackData, f.rating.finite = true) ∧
    loadFeedbackData (saveFeedbackData samplePage).localStorage =
      .loaded (collectionValue samplePage.feedbackData) :=
  ⟨by decide, by decide, save_load_roundtrip samplePage (by decide) (by decide)⟩

set_option maxRecDepth 100000 in
/-- C8, the claim as stated fails: a form submitted with an empty rating field
stores a record whose rating is `NaN`, and one submitted with a rating field
of 310 digits stores a record whose rating is `Infinity`; either is written as
`null`, and the load gives a record whose rating is `null`, not the value in
memory. -/
theorem nan_rating_not_restored :
    (handleFormSubmit blankRatingForm ⟨1000, js "t"⟩ emptyPage).feedbackData.map
      (fun f => f.rating) = [.nan] ∧
    loadFeedbackData (handleFormSubmit blankRatingForm ⟨1000, js "t"⟩ emptyPage).localStorage =
      .loaded (.arr [.obj [(js "id", .num 1000), (js "name", .str (js "Ann")),
        (js "email", .str (js "ann@example.org")), (js "rating", .null),
        (js "feedback", .str (js "Great")), (js "tags", .arr []), (js "date", .str (js "t")),
        (js "comments", .arr [])]]) ∧
    loadFeedbackData (handleFormSubmit blankRatingForm ⟨1000, js "t"⟩ emptyPage).localStorage ≠
      .loaded (collectionValue
        (handleFormSubmit blankRatingForm ⟨1000, js "t"⟩ emptyPage).feedbackData) ∧
    (handleFormSubmit longRatingForm ⟨1000, js "t"⟩ emptyPage).feedbackData.map
      (fun f => f.rating) = [.inf false] ∧
    loadFeedbackData (handleFormSubmit longRatingForm ⟨1000, js "t"⟩ emptyPage).localStorage ≠
      .loaded (collectionValue
        (handleFormSubmit longRatingForm ⟨1000, js "t"⟩ emptyPage).feedbackData) := by
  have r : parseInt blankRatingForm.rating = .nan := by decide
  have r' : parseInt longRatingForm.rating = .inf false := by decide
  have d1000 : isDouble 1000 = true := by decide
  have key : ∀ form : FormFields, (parseInt form.rating).double = true →
      loadFeedbackData (handleFormSubmit form ⟨1000, js "t"⟩ emptyPage).localStorage =
        .loaded (.arr [feedbackJSON (newFeedback form ⟨1000, js "t"⟩)]) := by
    intro form hform
    have h := load_after_save
      { emptyPage with feedbackData := [newFeedback form ⟨1000, js "t"⟩] }
      (by
        intro f hf
        simp only [List.mem_singleton] at hf
        subst hf
        simp [Feedback.doubles, newFeedback, d1000, hform])
    have e : (handleFormSubmit form ⟨1000, js "t"⟩ emptyPage).localStorage =
        (saveFeedbackData
          { emptyPage with feedbackData := [newFeedback form ⟨1000, js "t"⟩] }).localStorage := by
      unfold handleFormSubmit
      simp only
      split <;> rfl
    rw [e, h]
    rfl
  have ne : ∀ form : FormFields, (parseInt form.rating).double = true →
      (parseInt form.rating).finite = false →
      loadFeedbackData (handleFormSubmit form ⟨1000, js "t"⟩ emptyPage).localStorage ≠
        .loaded (collectionValue
          (handleFormSubmit form ⟨1000, js "t"⟩ emptyPage).feedbackData) := by
    intro form hform hfin e
    rw [key form hform, handleFormSubmit_feedbackData] at e
    have e' : feedbackJSON (newFeedback form ⟨1000, js "t"⟩) =
        feedbackValue (newFeedback form ⟨1000, js "t"⟩) := by
      simpa [collectionValue, emptyPage] using e
    cases hr : parseInt form.rating with
    | nan => simp [feedbackJSON, feedbackValue, newFeedback, hr, numberJSON, numberValue] at e'
    | inf b =>
      simp [feedbackJSON, feedbackValue, newFeedback, hr, numberJSON, numberValue] at e'
    | int i => simp [hr, JSNumber.finite] at hfin
  refine ⟨?_, ?_, ?_, ?_, ?_⟩
  · simp [handleFormSubmit_feedbackData, emptyPage, newFeedback, r]
  · rw [key blankRatingForm (by rw [r]; rfl)]
    simp only [feedbackJSON, newFeedback, r, numberJSON]
    rfl
  · exact ne blankRatingForm (by rw [r]; rfl) (by rw [r]; rfl)
  · simp [handleFormSubmit_feedbackData, emptyPage, newFeedback, r']
  · exact ne longRatingForm (by rw [r']; rfl) (by rw [r']; rfl)

/-- The initialiser of `feedbackData`, case by case: the empty array when the
entry is absent; the `SyntaxError` when the entry is there and `JSON.parse`
rejects it; when `JSON.parse` accepts it, the parsed value if it is truthy,
whatever its shape, and the empty array if it is falsy, that is `null`,
`false`, `0` or the empty string. -/
theorem load_cases (storage : Storage) :
    loadFeedbackData storage =
      (match getItem (js "feedbackData") storage with
       | none => .loaded (.arr [])
       | some blob =>
         match JSONparse blob with
         | none => .syntaxError
         | some v => .loaded (if v.truthy = true then v else .arr [])) ∧
    (∀ v : JSValue, v.truthy = false ↔
      v = .null ∨ v = .bool false ∨ v = .nan ∨ v = .num 0 ∨ v = .str []) := by
  constructor
  · unfold loadFeedbackData
    cases hg : getItem (js "feedbackData") storage with
    | none =>
      have : JSONparse (js "null") = some .null := reads_parse ⟨[.litNull], lex_null.toVal,
        parses_scalar _ _ (Or.inl ⟨rfl, rfl⟩)⟩
      simp [this, JSValue.truthy]
    | some blob =>
      cases hp : JSONparse blob with
      | none => simp [hp]
      | some v => cases ht : v.truthy <;> simp [hp, ht]
  · intro v
    cases v with
    | null => simp [JSValue.truthy]
    | bool b => cases b <;> simp [JSValue.truthy]
    | nan => simp [JSValue.truthy]
    | inf b => simp [JSValue.truthy]
    | num q => simp [JSValue.truthy]
    | str s => cases s <;> simp [JSValue.truthy, truthyString]
    | arr items => simp [JSValue.truthy]
    | obj members => simp [JSValue.truthy]

set_option maxRecDepth 100000 in
/-- Numbers in the entry are rounded as `JSON.parse` rounds them: `1e-400` is
0, so the empty array is loaded; `1e400` is `Infinity`, which is loaded as it
is; `0.1` is the double nearest to one tenth. -/
theorem load_rounds :
    loadFeedbackData [(js "feedbackData", js "1e-400")] = .loaded (.arr []) ∧
    loadFeedbackData [(js "feedbackData", js "1e400")] = .loaded (.inf false) ∧
    loadFeedbackData [(js "feedbackData", js "0.1")] =
      .loaded (.num (mkRat 3602879701896397 36028797018963968)) :=
  ⟨by rfl, by rfl, by rfl⟩

/-- C9: with the entry `oops` in `localStorage.feedbackData`, `JSON.parse`
rejects the text and the initialiser of `feedbackData` ends with its
`SyntaxError`; no collection is loaded, the empty one neither. -/
theorem malformed_blob_not_recovered :
    getItem (js "feedbackData") [(js "feedbackData", js "oops")] = some (js "oops") ∧
    JSONparse (js "oops") = none ∧
    loadFeedbackData [(js "feedbackData", js "oops")] = .syntaxError :=
  ⟨by rfl, by rfl, by rfl⟩

/-! ## The stored text after a change -/

theorem saved_then_drawn (p : Page) (data : List Feedback) :
    SavedThenDrawn p
      (displayFeedback data (saveFeedbackData { p with feedbackData := data })) := by
  constructor
  · simp [displayFeedback, saveFeedbackData, getItem_setItem]
  · simp [displayFeedback, saveFeedbackData]

theorem saved_then_drawn_options (p : Page) (data : List Feedback) :
    SavedThenDrawn p
      (if drawThrows data = true then
        displayFeedback data (saveFeedbackData { p with feedbackData := data })
      else
        updateTagFilterOptions data
          (displayFeedback data (saveFeedbackData { p with feedbackData := data }))) := by
  split
  · exact saved_then_drawn p data
  · exact saved_then_drawn p data

/-- C11: on every page, after `handleFormSubmit` with any form and after a
confirmed `deleteFeedback` of any id, and, for a feedback id that `find`
resolves, after `actuallySubmitComment`, and, for an index inside the
comments of that record, after `addReply` and `likeComment`: the entry
`feedbackData` of `localStorage` is `JSON.stringify` of the collection as the
handler left it, and the handler added to the trace exactly that write
followed by one call of `displayFeedback` with that collection, so the write
comes before the redraw. -/
theorem mutation_saved_then_drawn (p : Page) :
    (∀ (form : FormFields) (clock : Clock), SavedThenDrawn p (handleFormSubmit form clock p)) ∧
    (∀ deletedId : Int, SavedThenDrawn p (deleteFeedback true deletedId p)) ∧
    (∀ (feedbackId : Int) (feedback : Feedback),
      findFeedback feedbackId p.feedbackData = some feedback →
      (∀ (text name : JSString) (clock : Clock),
        SavedThenDrawn p (actuallySubmitComment feedbackId text name clock p)) ∧
      (∀ (commentId : Int) (comment : Comment),
        arrayGet feedback.comments commentId = some comment →
        (∀ (text : JSString) (clock : Clock),
          SavedThenDrawn p (addReply feedbackId commentId text clock p)) ∧
        SavedThenDrawn p (likeComment feedbackId commentId p))) := by
  refine ⟨?_, ?_, ?_⟩
  · intro form clock
    exact saved_then_drawn_options p _
  · intro deletedId
    simp only [deleteFeedback, if_true]
    exact saved_then_drawn_options p _
  · intro feedbackId feedback hf
    refine ⟨?_, ?_⟩
    · intro text name clock
      simp only [actuallySubmitComment, hf]
      exact saved_then_drawn p _
    · intro commentId comment hc
      refine ⟨?_, ?_⟩
      · intro text clock
        simp only [addReply, hf, hc]
        exact saved_then_drawn p _
      · simp only [likeComment, hf, hc]
        exact saved_then_drawn p _

/-- C11, worked instance: a submission and a deletion on the empty page, and
a comment, a reply and a like on the sample page, whose record has the id
1000 and one comment. -/
theorem mutation_saved_then_drawn_witness :
    SavedThenDrawn emptyPage (handleFormSubmit sampleForm ⟨3000, js "t"⟩ emptyPage) ∧
    SavedThenDrawn emptyPage (deleteFeedback true 1000 emptyPage) ∧
    findFeedback 1000 samplePage.feedbackData = some sampleFeedback ∧
    arrayGet sampleFeedback.comments 0 = some sampleComment ∧
    SavedThenDrawn samplePage
      (actuallySubmitComment 1000 (js "Nice") (js "Cy") ⟨3000, js "t"⟩ samplePage) ∧
    SavedThenDrawn samplePage (addReply 1000 0 (js "Nice") ⟨3000, js "t"⟩ samplePage) ∧
    SavedThenDrawn samplePage (likeComment 1000 0 samplePage) :=
  ⟨(mutation_saved_then_drawn emptyPage).1 sampleForm ⟨3000, js "t"⟩,
    (mutation_saved_then_drawn emptyPage).2.1 1000, by decide, by decide,
    ((mutation_saved_then_drawn samplePage).2.2 1000 sampleFeedback (by decide)).1
      (js "Nice") (js "Cy") ⟨3000, js "t"⟩,
    ((((mutation_saved_then_drawn samplePage).2.2 1000 sampleFeedback (by decide)).2 0
      sampleComment (by decide)).1 (js "Nice") ⟨3000, js "t"⟩),
    (((mutation_saved_then_drawn samplePage).2.2 1000 sampleFeedback (by decide)).2 0
      sampleComment (by decide)).2⟩

/-! ## The tag options -/

theorem mem_setAdd (acc : List JSString) (tag t : JSString) :
    t ∈ setAdd acc tag ↔ t ∈ acc ∨ t = tag := by
  unfold setAdd
  split
  · rename_i h
    constructor
    · exact Or.inl
    · rintro (h' | rfl)
      · exact h'
      · exact h
  · simp

theorem nodup_setAdd (acc : List JSString) (tag : JSString) (h : acc.Nodup) :
    (setAdd acc tag).Nodup := by
  unfold setAdd
  split
  · exact h
  · rename_i hn
    rw [List.nodup_append]
    refine ⟨h, List.nodup_singleton _, ?_⟩
    intro a ha hb
    simp only [List.mem_singleton] at hb
    subst hb
    exact hn ha

theorem mem_foldl_setAdd (tags acc : List JSString) (t : JSString) :
    t ∈ tags.foldl setAdd acc ↔ t ∈ acc ∨ t ∈ tags := by
  induction tags generalizing acc with
  | nil => simp
  | cons tag rest ih =>
    simp only [List.foldl_cons, ih, mem_setAdd, List.mem_cons]
    tauto

theorem nodup_foldl_setAdd (tags acc : List JSString) (h : acc.Nodup) :
    (tags.foldl setAdd acc).Nodup := by
  induction tags generalizing acc with
  | nil => exact h
  | cons tag rest ih => exact ih _ (nodup_setAdd acc tag h)

theorem mem_foldl_tags (feedbackArray : List Feedback) (acc : List JSString) (t : JSString) :
    t ∈ feedbackArray.foldl (fun acc feedback => feedback.tags.foldl setAdd acc) acc ↔
      t ∈ acc ∨ ∃ f ∈ feedbackArray, t ∈ f.tags := by
  induction feedbackArray generalizing acc with
  | nil => simp
  | cons f rest ih =>
    simp only [List.foldl_cons, ih, mem_foldl_setAdd, List.mem_cons, exists_eq_or_imp]
    tauto

theorem nodup_foldl_tags (feedbackArray : List Feedback) (acc : List JSString)
    (h : acc.Nodup) :
    (feedbackArray.foldl (fun acc feedback => feedback.tags.foldl setAdd acc) acc).Nodup := by
  induction feedbackArray generalizing acc with
  | nil => exact h
  | cons f rest ih => exact ih _ (nodup_foldl_setAdd f.tags acc h)

/-- C12: the options `updateTagFilterOptions` builds from an array are the set
`allTags` of the array; a string is in it exactly when it is a tag of some
record of the array, and no string is in it twice.  Records with the tags
`ui`, `bug` and `ui` give `ui` and `bug`; the empty array gives no tag. -/
theorem allTags_exact (feedbackArray : List Feedback) (p : Page) :
    (updateTagFilterOptions feedbackArray p).tagOptions = allTags feedbackArray ∧
    (∀ tag : JSString, tag ∈ allTags feedbackArray ↔ ∃ f ∈ feedbackArray, tag ∈ f.tags) ∧
    (allTags feedbackArray).Nodup ∧
    allTags [taggedFeedback 1 [js "ui", js "bug"], taggedFeedback 2 [js "ui"]] =
      [js "ui", js "bug"] ∧
    allTags [] = [] := by
  refine ⟨rfl, ?_, ?_, by decide, rfl⟩
  · intro tag
    have := mem_foldl_tags feedbackArray [] tag
    simpa [allTags] using this
  · exact nodup_foldl_tags feedbackArray [] List.nodup_nil

/-- When the redraw of `handleFormSubmit` or of a confirmed `deleteFeedback`
throws, the tag options stay as they were; otherwise they are rebuilt from
the collection the handler leaves. -/
theorem tagOptions_after (p : Page) (form : FormFields) (clock : Clock) (feedbackId : Int) :
    (handleFormSubmit form clock p).tagOptions =
      (if drawThrows (handleFormSubmit form clock p).feedbackData = true then p.tagOptions
       else allTags (handleFormSubmit form clock p).feedbackData) ∧
    (deleteFeedback true feedbackId p).tagOptions =
      (if drawThrows (deleteFeedback true feedbackId p).feedbackData = true then p.tagOptions
       else allTags (deleteFeedback true feedbackId p).feedbackData) := by
  constructor
  · rw [handleFormSubmit_feedbackData]
    by_cases h : drawThrows (newFeedback form clock :: p.feedbackData) = true <;>
      simp [handleFormSubmit, displayFeedback, saveFeedbackData, updateTagFilterOptions, h]
  · have h : (deleteFeedback true feedbackId p).feedbackData =
        p.feedbackData.filter (fun f => f.id != feedbackId) := by
      unfold deleteFeedback
      simp only [if_true]
      split <;> rfl
    rw [h]
    by_cases h' : drawThrows (p.feedbackData.filter (fun f => f.id != feedbackId)) = true <;>
      simp [deleteFeedback, displayFeedback, saveFeedbackData, updateTagFilterOptions, h']

end FeedbackCollector
